import Mathlib

/-!
RealLib `DataManager.h`: slot storage, free-index stack and pool allocator

Shallow embedding of `src/DataManager.h`.

* The machine type `u32` is `Nat`; every arithmetic operation the source performs on
  `u32` values is followed by an explicit reduction modulo `2^32`.
* A heap array reached through a `u32 *` is a `WordArray`: the number of words requested
  from `new u32[...]` together with the word stored at each offset from the base pointer.
  A pointer into the array is the offset (in words) from the base pointer; pointer
  arithmetic (`p + 1`, `p[k]`) is addition of offsets and does not wrap.
* `assert(c)` is modelled by returning `none` when `c` is false.
-/

namespace RealLib

/-- Reduction of a natural number to the range of the machine type `u32`. -/
def wrap32 (n : Nat) : Nat := n % 4294967296

/-- The `u32` product `a * b`. -/
def mul32 (a b : Nat) : Nat := wrap32 (a * b)

/-- The `u32` increment `++a`. -/
def inc32 (a : Nat) : Nat := wrap32 (a + 1)

/-- The `u32` decrement `--a`: `0` wraps to `2^32 - 1`. -/
def dec32 (a : Nat) : Nat := if a = 0 then 4294967295 else wrap32 (a - 1)

/-- The handle type: `typedef u32 Alloc;` -/
abbrev Alloc := Nat

/-- A heap array of `u32` words: `len` is the length given to `new u32[len]`,
`word p` is the word stored at offset `p` from the base pointer. -/
structure WordArray where
  len : Nat
  word : Nat → Nat

/-- The assignment `base[p] = v` through a `u32 *`. -/
def WordArray.store (a : WordArray) (p v : Nat) : WordArray :=
  { a with word := fun q => if q = p then v else a.word q }

/-- The class `DataBuffer`: all memory blocks, `m_uCount` blocks of `m_uPrec` words. -/
structure DataBuffer where
  m_uCount : Nat
  m_uPrec : Nat
  m_pData : WordArray

namespace DataBuffer

/-- The constructor `DataBuffer(u32 howmany, u32 precision)`; `garbage` is the
indeterminate content of the array returned by `new u32[howmany * precision]`. -/
def ctor (howmany precision : Nat) (garbage : Nat → Nat) : DataBuffer :=
  { m_uCount := howmany
    m_uPrec := precision
    m_pData := { len := mul32 howmany precision, word := garbage } }

/-- Source `u32 GetSize() { return m_uCount; }` -/
def GetSize (b : DataBuffer) : Nat := b.m_uCount

/-- Source `u32 GetPrec() { return m_uPrec; }` -/
def GetPrec (b : DataBuffer) : Nat := b.m_uPrec

/-- Source `u32 *operator[](u32 index)`: `assert(index < m_uCount)`, then the pointer
`m_pData + index * m_uPrec`, given as its offset from `m_pData`. -/
def index (b : DataBuffer) (index : Nat) : Option Nat :=
  if index < b.m_uCount then some (mul32 index b.m_uPrec) else none

/-- Modelled from the spec: `DataBuffer::Grow(u32 howmuch)` is only declared in
`DataManager.h`. It allocates a new array of `(m_uCount + howmuch) * m_uPrec` words, copies
the existing contents and updates the count; `garbage` is the indeterminate content of the
new array before the copy. -/
def Grow (b : DataBuffer) (howmuch : Nat) (garbage : Nat → Nat) : DataBuffer :=
  { m_uCount := wrap32 (b.m_uCount + howmuch)
    m_uPrec := b.m_uPrec
    m_pData :=
      { len := mul32 (wrap32 (b.m_uCount + howmuch)) b.m_uPrec
        word := fun p => if p < b.m_pData.len then b.m_pData.word p else garbage p } }

end DataBuffer

/-- The class `FreeStack`: a stack holding the available memory block indices. -/
structure FreeStack where
  m_pData : WordArray
  m_uCount : Nat
  m_uSize : Nat

namespace FreeStack

/-- Source `void push(u32 index)`: `assert(m_uCount < m_uSize); m_pData[m_uCount++] = index;` -/
def push (s : FreeStack) (index : Nat) : Option FreeStack :=
  if s.m_uCount < s.m_uSize then
    some { s with m_pData := s.m_pData.store s.m_uCount index
                  m_uCount := inc32 s.m_uCount }
  else none

/-- Source `u32 pop()`: `assert(m_uCount > 0); return m_pData[--m_uCount];`
The result is the returned index together with the stack after the call. -/
def pop (s : FreeStack) : Option (Nat × FreeStack) :=
  if s.m_uCount > 0 then
    some (s.m_pData.word (dec32 s.m_uCount), { s with m_uCount := dec32 s.m_uCount })
  else none

/-- Source `u32 GetCount() { return m_uCount; }` -/
def GetCount (s : FreeStack) : Nat := s.m_uCount

/-- Source `u32 GetSize() { return m_uSize; }` -/
def GetSize (s : FreeStack) : Nat := s.m_uSize

/-- The fields of the stack hold values of type `u32`. -/
def IsU32 (s : FreeStack) : Prop := s.m_uCount < 4294967296 ∧ s.m_uSize < 4294967296

instance (s : FreeStack) : Decidable s.IsU32 := by
  unfold IsU32; infer_instance

/-- One call on the stack: `push(index)` or `pop()`. -/
inductive Op where
  | push (index : Nat)
  | pop

/-- The stack after one call, `none` when the assertion of the call fails. -/
def step (s : FreeStack) : Op → Option FreeStack
  | Op.push index => s.push index
  | Op.pop => (s.pop).map Prod.snd

/-- The stack after a sequence of calls, `none` as soon as an assertion fails. -/
def run (s : FreeStack) : List Op → Option FreeStack
  | [] => some s
  | op :: ops => (s.step op).bind (fun t => t.run ops)

/-- Modelled from the spec: the constructor `FreeStack(u32 howmany)` is only declared in
`DataManager.h`. It allocates capacity for `howmany` indices and initialises the stack to
contain all indices `0..howmany-1` as free; the enumeration order, left open by the spec,
is taken ascending (entry `j` holds index `j`). -/
def ctor (howmany : Nat) : FreeStack :=
  { m_pData := { len := howmany, word := fun j => j }
    m_uCount := howmany
    m_uSize := howmany }

/-- Modelled from the spec: `FreeStack::Grow(u32 howmuch)` is only declared in
`DataManager.h`. It increases the capacity by `howmuch` and enqueues the `howmuch` newly
available indices `m_uSize .. m_uSize + howmuch - 1` as free, above the entries already
stacked. -/
def Grow (s : FreeStack) (howmuch : Nat) : FreeStack :=
  { m_pData :=
      { len := wrap32 (s.m_uSize + howmuch)
        word := fun j =>
          if s.m_uCount ≤ j ∧ j < s.m_uCount + howmuch then
            wrap32 (s.m_uSize + (j - s.m_uCount))
          else s.m_pData.word j }
    m_uCount := wrap32 (s.m_uCount + howmuch)
    m_uSize := wrap32 (s.m_uSize + howmuch) }

/-- The indices returned by `n` consecutive calls of `pop()`, first call first, together
with the stack after them; `none` when one of the calls fails its assertion. -/
def pops : Nat → FreeStack → Option (List Nat × FreeStack)
  | 0, s => some ([], s)
  | n + 1, s => (s.pop).bind (fun r => (pops n r.2).map (fun q => (r.1 :: q.1, q.2)))

/-- A stack of capacity 3 holding the two indices 0 and 1. -/
def sample : FreeStack :=
  { m_pData := { len := 3, word := fun j => j }, m_uCount := 2, m_uSize := 3 }

end FreeStack

/-- The class `DataManager`: data allocation and freeing on top of `DataBuffer` and
`FreeStack`. -/
structure DataManager where
  m_Buf : DataBuffer
  m_Free : FreeStack
  m_uGrow : Nat

namespace DataManager

/-- Source `u32 GetFreeCount() { return m_Free.GetCount(); }` -/
def GetFreeCount (d : DataManager) : Nat := d.m_Free.GetCount

/-- Source `u32 GetSize() { return m_Free.GetSize(); }` -/
def GetSize (d : DataManager) : Nat := d.m_Free.GetSize

/-- Source `u32 GetPrec() { return m_Buf.GetPrec(); }` -/
def GetPrec (d : DataManager) : Nat := d.m_Buf.GetPrec

/-- Source `u32 *operator[](Alloc index) { return m_Buf[index] + 1; }`, the returned pointer
given as its offset from `m_Buf.m_pData`. -/
def index (d : DataManager) (index : Alloc) : Option Nat :=
  (d.m_Buf.index index).map (fun p => p + 1)

/-- Source `bool AllocCanBeChanged(Alloc alloc) { return m_Buf[alloc][0] == 1; }` -/
def AllocCanBeChanged (d : DataManager) (alloc : Alloc) : Option Bool :=
  (d.m_Buf.index alloc).map (fun p => d.m_Buf.m_pData.word (p + 0) == 1)

/-- The header word of slot `h`: word 0 of the block `m_Buf[h]`. -/
def header (d : DataManager) (h : Alloc) : Option Nat :=
  (d.m_Buf.index h).map (fun p => d.m_Buf.m_pData.word p)

/-- A client's read `d[h][k]` through the pointer returned by `operator[]`. -/
def read (d : DataManager) (h : Alloc) (k : Nat) : Option Nat :=
  (d.index h).map (fun p => d.m_Buf.m_pData.word (p + k))

/-- A client's assignment `d[h][k] = v` through the pointer returned by `operator[]`. -/
def write (d : DataManager) (h : Alloc) (k v : Nat) : Option DataManager :=
  (d.index h).map (fun p =>
    { d with m_Buf := { d.m_Buf with m_pData := d.m_Buf.m_pData.store (p + k) v } })

/-- Modelled from the spec: the constructor `DataManager(u32 prec, u32 howmany, u32 grow)`
is only declared in `DataManager.h`. It builds the slot storage of `howmany` slots of
`prec` words and the free stack of size `howmany`, and remembers the growth step. -/
def ctor (prec howmany grow : Nat) (garbage : Nat → Nat) : DataManager :=
  { m_Buf := DataBuffer.ctor howmany prec garbage
    m_Free := FreeStack.ctor howmany
    m_uGrow := grow }

/-- Modelled from the spec: `DataManager::get()` is only declared in `DataManager.h`.
If the free stack is empty, slot storage and free stack grow by the growth step; then
an index is popped and returned. `garbage` is the content of the memory obtained when the
storage grows. -/
def get (d : DataManager) (garbage : Nat → Nat) : Option (Nat × DataManager) :=
  let g : DataManager :=
    if d.m_Free.GetCount = 0 then
      { d with m_Buf := d.m_Buf.Grow d.m_uGrow garbage, m_Free := d.m_Free.Grow d.m_uGrow }
    else d
  (g.m_Free.pop).map (fun r => (r.1, { g with m_Free := r.2 }))

/-- Modelled from the spec: `DataManager::free(u32 index)` is only declared in
`DataManager.h`. It pushes the index back onto the free stack. -/
def free (d : DataManager) (index : Nat) : Option DataManager :=
  (d.m_Free.push index).map (fun f => { d with m_Free := f })

/-- The assignment `m_Buf[h][0] = v` of a header word. -/
def setHeader (d : DataManager) (h : Alloc) (v : Nat) : Option DataManager :=
  (d.m_Buf.index h).map (fun p =>
    { d with m_Buf := { d.m_Buf with m_pData := d.m_Buf.m_pData.store p v } })

/-- Modelled from the spec: `DataManager::newAlloc()` is only declared in `DataManager.h`.
It obtains an index via `get()`, sets its header word to 1 and returns the handle. -/
def newAlloc (d : DataManager) (garbage : Nat → Nat) : Option (Alloc × DataManager) :=
  (d.get garbage).bind (fun r => (r.2.setHeader r.1 1).map (fun e => (r.1, e)))

/-- Modelled from the spec: `DataManager::referenceAlloc(Alloc)` is only declared in
`DataManager.h`. It increments the header word of the slot by 1 and returns the same
handle. -/
def referenceAlloc (d : DataManager) (alloc : Alloc) : Option (Alloc × DataManager) :=
  (d.header alloc).bind (fun w => (d.setHeader alloc (inc32 w)).map (fun e => (alloc, e)))

/-- Modelled from the spec: `DataManager::releaseAlloc(Alloc)` is only declared in
`DataManager.h`. It decrements the header word of the slot by 1 and, if it reaches 0,
calls `free(index)`. -/
def releaseAlloc (d : DataManager) (alloc : Alloc) : Option DataManager :=
  (d.header alloc).bind (fun w =>
    (d.setHeader alloc (dec32 w)).bind (fun e =>
      if dec32 w = 0 then e.free alloc else some e))

/-- The manager after `n` consecutive calls of `newAlloc()`, `none` when one of them
fails. -/
def newAllocTimes (garbage : Nat → Nat) : Nat → DataManager → Option DataManager
  | 0, d => some d
  | n + 1, d => (d.newAlloc garbage).bind (fun r => newAllocTimes garbage n r.2)

/-- Whether `h` is one of the first `count` entries of the array `entry`. -/
def stackedIn (entry : Nat → Nat) (count h : Nat) : Bool :=
  (List.range count).any (fun j => entry j == h)

/-- Whether index `h` is one of the first `m_uCount` entries of the free stack. -/
def onFreeStack (d : DataManager) (h : Alloc) : Bool :=
  stackedIn d.m_Free.m_pData.word d.m_Free.m_uCount h

/-- Whether the header word of slot `h` is at least 1. -/
def headerPositive (d : DataManager) (h : Alloc) : Bool :=
  match d.header h with
  | some w => decide (1 ≤ w)
  | none => false

/-- The number of slots `h < GetSize()` whose header refcount is at least 1. -/
def countHeaderPositive (d : DataManager) : Nat :=
  (List.range d.GetSize).countP (fun h => d.headerPositive h)

/-- The number of slots `h < GetSize()` that are not on the free stack and whose header
refcount is at least 1. -/
def countAllocated (d : DataManager) : Nat :=
  (List.range d.GetSize).countP (fun h => !d.onFreeStack h && d.headerPositive h)

/-- One call of the public allocation interface; `garbage` is the content of the memory
obtained if the call makes the storage grow. -/
inductive Call where
  | newAlloc (garbage : Nat → Nat)
  | referenceAlloc (alloc : Alloc)
  | releaseAlloc (alloc : Alloc)

/-- The memory a call may obtain from the system is zero-filled. -/
def Call.zeroFilled : Call → Prop
  | Call.newAlloc garbage => ∀ p, garbage p = 0
  | Call.referenceAlloc _ => True
  | Call.releaseAlloc _ => True

/-- A manager together with the client-side bookkeeping of the usage contract:
`held h` is the number of references to handle `h` that were produced by `newAlloc` or
`referenceAlloc` and have not been released yet. -/
structure Session where
  d : DataManager
  held : Alloc → Nat

/-- The session right after construction: no handle is held. -/
def Session.init (prec howmany grow : Nat) (garbage : Nat → Nat) : Session :=
  { d := DataManager.ctor prec howmany grow garbage, held := fun _ => 0 }

/-- The bookkeeping after one more reference to `h` was handed out. -/
def Session.acquire (held : Alloc → Nat) (h : Alloc) : Alloc → Nat :=
  fun g => if g = h then held h + 1 else held g

/-- The bookkeeping after one reference to `h` was given back. -/
def Session.giveBack (held : Alloc → Nat) (h : Alloc) : Alloc → Nat :=
  fun g => if g = h then held h - 1 else held g

/-- One call made under the usage contract, `none` when the call is not allowed or an
assertion fails. `referenceAlloc` and `releaseAlloc` take a handle of which the client
holds a reference; a slot never gets `2^32` references; the storage grows only while
`(size + growth step) * precision` stays below `2^32`. -/
def Session.step (s : Session) : Call → Option Session
  | Call.newAlloc garbage =>
    if s.d.m_Free.GetCount ≠ 0 ∨
        (s.d.m_Buf.m_uCount + s.d.m_uGrow) * s.d.m_Buf.m_uPrec < 4294967296 then
      (s.d.newAlloc garbage).map (fun r => { d := r.2, held := Session.acquire s.held r.1 })
    else none
  | Call.referenceAlloc h =>
    if 1 ≤ s.held h ∧ s.held h + 1 < 4294967296 then
      (s.d.referenceAlloc h).map (fun r => { d := r.2, held := Session.acquire s.held h })
    else none
  | Call.releaseAlloc h =>
    if 1 ≤ s.held h then
      (s.d.releaseAlloc h).map (fun e => { d := e, held := Session.giveBack s.held h })
    else none

/-- A sequence of calls made under the usage contract. -/
def Session.run (s : Session) : List Call → Option Session
  | [] => some s
  | c :: cs => (s.step c).bind (fun t => t.run cs)

/-- The pool invariant of a session: storage and free stack have the same size, the
slots do not wrap around `2^32`, the stacked entries are distinct valid indices, an
index is held by the client exactly when it is a valid index that is not stacked, and
the header of a held slot is the number of references held. With `clean` (all memory
obtained from the system is zero-filled) the header of every slot not held is 0. -/
structure Session.Inv (clean : Prop) (s : Session) : Prop where
  size_eq : s.d.m_Free.m_uSize = s.d.m_Buf.m_uCount
  prec_pos : 1 ≤ s.d.m_Buf.m_uPrec
  no_wrap : s.d.m_Buf.m_uCount * s.d.m_Buf.m_uPrec < 4294967296
  len_eq : s.d.m_Buf.m_pData.len = s.d.m_Buf.m_uCount * s.d.m_Buf.m_uPrec
  count_le : s.d.m_Free.m_uCount ≤ s.d.m_Buf.m_uCount
  entry_lt : ∀ j, j < s.d.m_Free.m_uCount → s.d.m_Free.m_pData.word j < s.d.m_Buf.m_uCount
  entry_inj : ∀ i j, i < s.d.m_Free.m_uCount → j < s.d.m_Free.m_uCount →
    s.d.m_Free.m_pData.word i = s.d.m_Free.m_pData.word j → i = j
  held_zero : ∀ h : Nat, s.held h = 0 ↔
    (s.d.m_Buf.m_uCount ≤ h ∨ ∃ j, j < s.d.m_Free.m_uCount ∧ s.d.m_Free.m_pData.word j = h)
  header_eq : ∀ h : Nat, 1 ≤ s.held h →
    s.d.m_Buf.m_pData.word (h * s.d.m_Buf.m_uPrec) = s.held h ∧ s.held h < 4294967296
  clean_zero : clean → ∀ h : Nat, h < s.d.m_Buf.m_uCount → s.held h = 0 →
    s.d.m_Buf.m_pData.word (h * s.d.m_Buf.m_uPrec) = 0

/-- A manager whose storage was built by `DataBuffer(howmany, prec)` over memory in which
every word holds `fill`, with all `howmany` indices on the free stack. -/
def sample (prec howmany fill : Nat) : DataManager :=
  { m_Buf := DataBuffer.ctor howmany prec (fun _ => fill)
    m_Free := { m_pData := { len := howmany, word := fun j => j }
                m_uCount := howmany, m_uSize := howmany }
    m_uGrow := 100 }

end DataManager

/-! ## Machine arithmetic -/

theorem wrap32_of_lt {n : Nat} (h : n < 4294967296) : wrap32 n = n := by
  unfold wrap32; omega

theorem inc32_of_lt {a b : Nat} (h : a < b) (hb : b < 4294967296) : inc32 a = a + 1 := by
  unfold inc32 wrap32; omega

theorem dec32_of_pos {a : Nat} (h : 0 < a) (ha : a < 4294967296) : dec32 a = a - 1 := by
  have h0 : a ≠ 0 := by omega
  unfold dec32 wrap32
  rw [if_neg h0]
  omega

theorem mul32_of_lt {a b : Nat} (h : a * b < 4294967296) : mul32 a b = a * b := by
  unfold mul32; exact wrap32_of_lt h

/-- Blocks of `prec` words laid out one after another do not overlap. -/
theorem block_le_of_lt {a b : Nat} (prec : Nat) (h : a < b) : a * prec + prec ≤ b * prec := by
  have h1 : (a + 1) * prec ≤ b * prec := Nat.mul_le_mul_right prec h
  rw [Nat.add_mul, Nat.one_mul] at h1
  exact h1

/-- Below the slot count every block start is below the total `count * prec`. -/
theorem block_end_le {h count : Nat} (prec : Nat) (hv : h < count) :
    h * prec + prec ≤ count * prec := block_le_of_lt prec hv

/-! ## The free-index stack -/

theorem FreeStack.push_eq_of_lt (s : FreeStack) (i : Nat) (h : s.m_uCount < s.m_uSize) :
    s.push i = some { s with m_pData := s.m_pData.store s.m_uCount i
                             m_uCount := inc32 s.m_uCount } := by
  simp [FreeStack.push, h]

theorem FreeStack.pop_eq_of_pos (s : FreeStack) (h : 0 < s.m_uCount) :
    s.pop = some (s.m_pData.word (dec32 s.m_uCount),
      { s with m_uCount := dec32 s.m_uCount }) := by
  simp [FreeStack.pop, h]

/-- C1: a push on a stack that is not full, followed immediately by a pop, returns the
pushed index and restores the count, the size and the first `count` stored entries. -/
theorem FreeStack.push_pop_lifo (s : FreeStack) (i : Nat) (hs : s.IsU32)
    (hlt : s.m_uCount < s.m_uSize) :
    ∃ s1 s2, s.push i = some s1 ∧ s1.pop = some (i, s2) ∧
      s2.GetCount = s.GetCount ∧ s2.GetSize = s.GetSize ∧
      ∀ j, j < s.m_uCount → s2.m_pData.word j = s.m_pData.word j := by
  obtain ⟨hc, hz⟩ := hs
  have hinc : inc32 s.m_uCount = s.m_uCount + 1 := inc32_of_lt hlt hz
  have hdec : dec32 (s.m_uCount + 1) = s.m_uCount := by
    rw [dec32_of_pos (by omega) (by omega)]; omega
  refine ⟨_, { m_pData := s.m_pData.store s.m_uCount i, m_uCount := s.m_uCount,
                m_uSize := s.m_uSize }, s.push_eq_of_lt i hlt, ?_, ?_, ?_, ?_⟩
  · rw [FreeStack.pop_eq_of_pos _ (by simp [hinc])]
    simp [hinc, hdec, WordArray.store]
  · simp [FreeStack.GetCount]
  · simp [FreeStack.GetSize]
  · intro j hj
    have : j ≠ s.m_uCount := by omega
    simp [WordArray.store, this]

theorem FreeStack.push_pop_lifo_witness :
    ∃ s1 s2, FreeStack.sample.push 7 = some s1 ∧ s1.pop = some (7, s2) ∧
      s2.GetCount = FreeStack.sample.GetCount ∧ s2.GetSize = FreeStack.sample.GetSize ∧
      ∀ j, j < FreeStack.sample.m_uCount →
        s2.m_pData.word j = FreeStack.sample.m_pData.word j :=
  FreeStack.push_pop_lifo FreeStack.sample 7 (by decide) (by decide)

/-! ## Slot storage and the indexing operations -/

theorem DataBuffer.index_of_lt (b : DataBuffer) (i : Nat) (h : i < b.m_uCount) :
    b.index i = some (mul32 i b.m_uPrec) := by
  simp [DataBuffer.index, h]

theorem DataBuffer.index_eq_none (b : DataBuffer) (i : Nat) :
    b.index i = none ↔ b.m_uCount ≤ i := by
  unfold DataBuffer.index
  split <;> simp <;> omega

/-- C2: for a valid handle, `AllocCanBeChanged` returns true exactly when the header
word of the slot is 1; it returns false for the header values 0, 2 and above. -/
theorem DataManager.allocCanBeChanged_iff_header_one (d : DataManager) (h : Alloc)
    (hv : h < d.m_Buf.GetSize) :
    ∃ w, d.header h = some w ∧
      d.AllocCanBeChanged h = some (decide (w = 1)) ∧
      (d.AllocCanBeChanged h = some true ↔ w = 1) ∧
      (w = 0 → d.AllocCanBeChanged h = some false) ∧
      (2 ≤ w → d.AllocCanBeChanged h = some false) := by
  have hi := d.m_Buf.index_of_lt h hv
  refine ⟨d.m_Buf.m_pData.word (mul32 h d.m_Buf.m_uPrec), ?_, ?_, ?_, ?_, ?_⟩
  · simp [DataManager.header, hi]
  · simp only [DataManager.AllocCanBeChanged, hi, Option.map_some', Nat.add_zero]
    by_cases hw : d.m_Buf.m_pData.word (mul32 h d.m_Buf.m_uPrec) = 1 <;> simp [hw]
  · simp [DataManager.AllocCanBeChanged, hi]
  · intro h0
    simp [DataManager.AllocCanBeChanged, hi, h0]
  · intro h2
    have : d.m_Buf.m_pData.word (mul32 h d.m_Buf.m_uPrec) ≠ 1 := by omega
    simp [DataManager.AllocCanBeChanged, hi, this]

theorem DataManager.allocCanBeChanged_iff_header_one_witness :
    ∃ w, (DataManager.sample 4 3 2).header 1 = some w ∧
      (DataManager.sample 4 3 2).AllocCanBeChanged 1 = some (decide (w = 1)) ∧
      ((DataManager.sample 4 3 2).AllocCanBeChanged 1 = some true ↔ w = 1) ∧
      (w = 0 → (DataManager.sample 4 3 2).AllocCanBeChanged 1 = some false) ∧
      (2 ≤ w → (DataManager.sample 4 3 2).AllocCanBeChanged 1 = some false) :=
  DataManager.allocCanBeChanged_iff_header_one (DataManager.sample 4 3 2) 1 (by decide)

theorem DataManager.payload_ptr_of_lt (d : DataManager) (h : Alloc) (hv : h < d.m_Buf.m_uCount) :
    d.index h = some (mul32 h d.m_Buf.m_uPrec + 1) := by
  simp [DataManager.index, d.m_Buf.index_of_lt h hv]

theorem DataManager.write_of_lt (d : DataManager) (h : Alloc) (k v : Nat)
    (hv : h < d.m_Buf.m_uCount) :
    d.write h k v = some { d with m_Buf := { d.m_Buf with
      m_pData := d.m_Buf.m_pData.store (mul32 h d.m_Buf.m_uPrec + 1 + k) v } } := by
  simp [DataManager.write, d.payload_ptr_of_lt h hv]

/-- With `count * prec` below `2^32` the payload word `k` of slot `h` is not the first
word of any slot `g`. -/
theorem payload_ne_header {count prec h g k : Nat} (hno : count * prec < 4294967296)
    (hh : h < count) (hg : g < count) (hk : k + 1 < prec) :
    mul32 g prec ≠ mul32 h prec + 1 + k := by
  have eh := block_end_le prec hh
  have eg := block_end_le prec hg
  rw [mul32_of_lt (by omega), mul32_of_lt (by omega)]
  rcases Nat.lt_trichotomy g h with hlt | heq | hgt
  · have := block_le_of_lt prec hlt
    omega
  · subst heq
    omega
  · have := block_le_of_lt prec hgt
    omega

/-- C3 as stated fails: in a storage of 3 slots of `2^31 + 1` words the `u32` product
`2 * (2^31 + 1)` wraps to 2, so the payload word `d[0][1]` is the header word of slot 2;
writing 0 to it turns `AllocCanBeChanged(2)` from true to false. The word lies inside
the `2^31 + 3` words the constructor allocates. -/
theorem DataManager.write_payload_changes_header_counterexample :
    1 ≤ (DataManager.sample 2147483649 3 1).m_Buf.GetPrec ∧
    0 < (DataManager.sample 2147483649 3 1).m_Buf.GetSize ∧
    2 < (DataManager.sample 2147483649 3 1).m_Buf.GetSize ∧
    1 < (DataManager.sample 2147483649 3 1).m_Buf.GetPrec - 1 ∧
    2 < (DataManager.sample 2147483649 3 1).m_Buf.m_pData.len ∧
    ∃ d, (DataManager.sample 2147483649 3 1).write 0 1 0 = some d ∧
      (DataManager.sample 2147483649 3 1).header 2 = some 1 ∧ d.header 2 = some 0 ∧
      (DataManager.sample 2147483649 3 1).AllocCanBeChanged 2 = some true ∧
      d.AllocCanBeChanged 2 = some false := by
  refine ⟨by decide, by decide, by decide, by decide, by decide, _, rfl, ?_, ?_, ?_, ?_⟩ <;>
    decide

/-- C3 (amended): when `count * prec` is below `2^32`, a write to any payload word
`d[h][k]`, `k < prec - 1`, of a valid handle leaves the header word of every valid slot
unchanged, and with it the result of `AllocCanBeChanged`. -/
theorem DataManager.write_payload_keeps_header (d : DataManager) (h g : Alloc) (k v : Nat)
    (hp : 1 ≤ d.m_Buf.GetPrec)
    (hno : d.m_Buf.GetSize * d.m_Buf.GetPrec < 4294967296)
    (hh : h < d.m_Buf.GetSize) (hg : g < d.m_Buf.GetSize) (hk : k < d.m_Buf.GetPrec - 1) :
    ∃ e, d.write h k v = some e ∧ e.header g = d.header g ∧
      e.AllocCanBeChanged g = d.AllocCanBeChanged g := by
  simp only [DataBuffer.GetSize, DataBuffer.GetPrec] at hp hno hh hg hk
  have hne := payload_ne_header (k := k) hno hh hg (by omega)
  refine ⟨_, d.write_of_lt h k v hh, ?_, ?_⟩
  · simp [DataManager.header, DataBuffer.index, hg, WordArray.store, hne]
  · simp [DataManager.AllocCanBeChanged, DataBuffer.index, hg, WordArray.store, hne]

theorem DataManager.write_payload_keeps_header_witness :
    ∃ e, (DataManager.sample 4 3 1).write 0 1 9 = some e ∧
      e.header 2 = (DataManager.sample 4 3 1).header 2 ∧
      e.AllocCanBeChanged 2 = (DataManager.sample 4 3 1).AllocCanBeChanged 2 :=
  DataManager.write_payload_keeps_header (DataManager.sample 4 3 1) 0 2 1 9
    (by decide) (by decide) (by decide) (by decide) (by decide)

/-- C4 as stated fails: with 3 slots of `2^31` words the `u32` product `2 * 2^31` wraps
to 0, so `d[0][0]` and `d[2][0]` are the same word (offset 1) although `0 ≠ 2`. The
word lies inside the `2^31` words the constructor allocates. -/
theorem DataManager.distinct_slots_alias_counterexample :
    1 ≤ (DataManager.sample 2147483648 3 0).m_Buf.GetPrec ∧
    0 < (DataManager.sample 2147483648 3 0).m_Buf.GetSize ∧
    2 < (DataManager.sample 2147483648 3 0).m_Buf.GetSize ∧
    (0 : Nat) ≠ 2 ∧
    0 < (DataManager.sample 2147483648 3 0).m_Buf.GetPrec - 1 ∧
    1 < (DataManager.sample 2147483648 3 0).m_Buf.m_pData.len ∧
    ∃ p q, (DataManager.sample 2147483648 3 0).index 0 = some p ∧
      (DataManager.sample 2147483648 3 0).index 2 = some q ∧ p + 0 = q + 0 := by
  refine ⟨by decide, by decide, by decide, by decide, by decide, by decide, 1, 1, ?_, ?_, rfl⟩ <;>
    decide

/-- C4 (amended): when `count * prec` is below `2^32`, payload words of two distinct
valid handles are distinct words: the offsets `index * prec + 1 + a` computed by
`operator[]` differ. -/
theorem DataManager.distinct_slots_disjoint (d : DataManager) (i j : Alloc) (a b : Nat)
    (hp : 1 ≤ d.m_Buf.GetPrec)
    (hno : d.m_Buf.GetSize * d.m_Buf.GetPrec < 4294967296)
    (hi : i < d.m_Buf.GetSize) (hj : j < d.m_Buf.GetSize) (hij : i ≠ j)
    (ha : a < d.m_Buf.GetPrec - 1) (hb : b < d.m_Buf.GetPrec - 1) :
    ∃ p q, d.index i = some p ∧ d.index j = some q ∧ p + a ≠ q + b := by
  simp only [DataBuffer.GetSize, DataBuffer.GetPrec] at hp hno hi hj ha hb
  refine ⟨_, _, d.payload_ptr_of_lt i hi, d.payload_ptr_of_lt j hj, ?_⟩
  have ei := block_end_le d.m_Buf.m_uPrec hi
  have ej := block_end_le d.m_Buf.m_uPrec hj
  rw [mul32_of_lt (by omega), mul32_of_lt (by omega)]
  rcases Nat.lt_or_gt_of_ne hij with hlt | hgt
  · have := block_le_of_lt d.m_Buf.m_uPrec hlt
    omega
  · have := block_le_of_lt d.m_Buf.m_uPrec hgt
    omega

theorem DataManager.distinct_slots_disjoint_witness :
    ∃ p q, (DataManager.sample 4 3 0).index 0 = some p ∧
      (DataManager.sample 4 3 0).index 2 = some q ∧ p + 2 ≠ q + 0 :=
  DataManager.distinct_slots_disjoint (DataManager.sample 4 3 0) 0 2 2 0
    (by decide) (by decide) (by decide) (by decide) (by decide) (by decide) (by decide)

/-- C5: for a valid handle, a value written to `d[h][k]` is the value read back from
`d[h][k]`, and every other payload word `d[h][k2]`, `k2 ≠ k`, reads as before the write. -/
theorem DataManager.write_read_roundtrip (d : DataManager) (h : Alloc) (k v : Nat)
    (hh : h < d.m_Buf.GetSize) :
    ∃ e, d.write h k v = some e ∧ e.read h k = some v ∧
      ∀ k2, k2 ≠ k → e.read h k2 = d.read h k2 := by
  simp only [DataBuffer.GetSize] at hh
  refine ⟨_, d.write_of_lt h k v hh, ?_, ?_⟩
  · simp [DataManager.read, DataManager.index, DataBuffer.index, hh, WordArray.store]
  · intro k2 hk2
    simp [DataManager.read, DataManager.index, DataBuffer.index, hh, WordArray.store, hk2]

theorem DataManager.write_read_roundtrip_witness :
    ∃ e, (DataManager.sample 4 3 0).write 1 2 77 = some e ∧ e.read 1 2 = some 77 ∧
      ∀ k2, k2 ≠ 2 → e.read 1 k2 = (DataManager.sample 4 3 0).read 1 k2 :=
  DataManager.write_read_roundtrip (DataManager.sample 4 3 0) 1 2 77 (by decide)

/-- C6: `DataBuffer::operator[]` fails exactly when the index is not below the slot
count and otherwise returns the offset `index * m_uPrec` (the `u32` product, which is
the exact product whenever that is below `2^32`); `DataManager::operator[]` and
`AllocCanBeChanged` fail exactly when the handle is not below the slot count. -/
theorem DataBuffer.index_bounds_checked (d : DataManager) (i : Nat) :
    (d.m_Buf.index i = none ↔ d.m_Buf.GetSize ≤ i) ∧
    (i < d.m_Buf.GetSize → d.m_Buf.index i = some (mul32 i d.m_Buf.GetPrec)) ∧
    (i * d.m_Buf.GetPrec < 4294967296 → mul32 i d.m_Buf.GetPrec = i * d.m_Buf.GetPrec) ∧
    (d.index i = none ↔ d.m_Buf.GetSize ≤ i) ∧
    (d.AllocCanBeChanged i = none ↔ d.m_Buf.GetSize ≤ i) := by
  refine ⟨d.m_Buf.index_eq_none i, d.m_Buf.index_of_lt i, mul32_of_lt, ?_, ?_⟩
  · simp [DataManager.index, d.m_Buf.index_eq_none i, DataBuffer.GetSize]
  · simp [DataManager.AllocCanBeChanged, d.m_Buf.index_eq_none i, DataBuffer.GetSize]

theorem DataBuffer.index_bounds_checked_witness :
    ((DataManager.sample 4 3 0).m_Buf.index 3 = none ↔
      (DataManager.sample 4 3 0).m_Buf.GetSize ≤ 3) ∧
    (DataManager.sample 4 3 0).m_Buf.index 2 = some 8 ∧
    ((DataManager.sample 4 3 0).index 3 = none ↔
      (DataManager.sample 4 3 0).m_Buf.GetSize ≤ 3) :=
  ⟨(DataBuffer.index_bounds_checked (DataManager.sample 4 3 0) 3).1,
   (DataBuffer.index_bounds_checked (DataManager.sample 4 3 0) 2).2.1 (by decide),
   (DataBuffer.index_bounds_checked (DataManager.sample 4 3 0) 3).2.2.2.1⟩

/-! ## Push, pop and the capacity invariant -/

theorem FreeStack.push_eq_none (s : FreeStack) (i : Nat) :
    s.push i = none ↔ ¬ s.m_uCount < s.m_uSize := by
  unfold FreeStack.push
  split <;> simp [*]

theorem FreeStack.pop_eq_none (s : FreeStack) : s.pop = none ↔ ¬ 0 < s.m_uCount := by
  unfold FreeStack.pop
  split <;> simp_all

theorem FreeStack.push_some (s t : FreeStack) (i : Nat) (h : s.push i = some t) :
    s.m_uCount < s.m_uSize ∧
      t = { s with m_pData := s.m_pData.store s.m_uCount i, m_uCount := inc32 s.m_uCount } := by
  by_cases hlt : s.m_uCount < s.m_uSize
  · rw [s.push_eq_of_lt i hlt] at h
    exact ⟨hlt, (Option.some.inj h).symm⟩
  · rw [(s.push_eq_none i).2 hlt] at h
    cases h

theorem FreeStack.pop_some (s t : FreeStack) (v : Nat) (h : s.pop = some (v, t)) :
    0 < s.m_uCount ∧ v = s.m_pData.word (dec32 s.m_uCount) ∧
      t = { s with m_uCount := dec32 s.m_uCount } := by
  by_cases hpos : 0 < s.m_uCount
  · rw [s.pop_eq_of_pos hpos] at h
    have h2 := Option.some.inj h
    exact ⟨hpos, (congrArg Prod.fst h2).symm, (congrArg Prod.snd h2).symm⟩
  · rw [s.pop_eq_none.2 hpos] at h
    cases h

/-- C7: `push` succeeds exactly when `count < size`; on success the count grows by
exactly 1, the size is unchanged, the entry at the old count is the pushed index and
every entry below the old count is unchanged. -/
theorem FreeStack.push_spec (s : FreeStack) (i : Nat) (hs : s.IsU32) :
    ((∃ t, s.push i = some t) ↔ s.GetCount < s.GetSize) ∧
    (s.push i = none ↔ ¬ s.GetCount < s.GetSize) ∧
    ∀ t, s.push i = some t →
      t.GetCount = s.GetCount + 1 ∧ t.GetSize = s.GetSize ∧
      t.m_pData.word s.GetCount = i ∧
      ∀ j, j < s.GetCount → t.m_pData.word j = s.m_pData.word j := by
  simp only [FreeStack.GetCount, FreeStack.GetSize]
  refine ⟨⟨fun ⟨t, ht⟩ => (s.push_some t i ht).1, fun h => ⟨_, s.push_eq_of_lt i h⟩⟩,
    s.push_eq_none i, ?_⟩
  intro t ht
  obtain ⟨hlt, rfl⟩ := s.push_some t i ht
  refine ⟨inc32_of_lt hlt hs.2, rfl, by simp [WordArray.store], ?_⟩
  intro j hj
  have : j ≠ s.m_uCount := by omega
  simp [WordArray.store, this]

theorem FreeStack.push_spec_witness :
    ((∃ t, FreeStack.sample.push 5 = some t) ↔
      FreeStack.sample.GetCount < FreeStack.sample.GetSize) ∧
    (FreeStack.sample.push 5 = none ↔
      ¬ FreeStack.sample.GetCount < FreeStack.sample.GetSize) ∧
    ∀ t, FreeStack.sample.push 5 = some t →
      t.GetCount = FreeStack.sample.GetCount + 1 ∧ t.GetSize = FreeStack.sample.GetSize ∧
      t.m_pData.word FreeStack.sample.GetCount = 5 ∧
      ∀ j, j < FreeStack.sample.GetCount →
        t.m_pData.word j = FreeStack.sample.m_pData.word j :=
  FreeStack.push_spec FreeStack.sample 5 (by decide)

/-- C8: `pop` succeeds exactly when `count > 0`; on success it returns the entry stored
at position `count - 1`, the count drops by exactly 1, the size is unchanged and the
stored entries are not modified. -/
theorem FreeStack.pop_spec (s : FreeStack) (hs : s.IsU32) :
    ((∃ r, s.pop = some r) ↔ 0 < s.GetCount) ∧
    (s.pop = none ↔ ¬ 0 < s.GetCount) ∧
    ∀ v t, s.pop = some (v, t) →
      v = s.m_pData.word (s.GetCount - 1) ∧
      t.GetCount + 1 = s.GetCount ∧ t.GetSize = s.GetSize ∧ t.m_pData = s.m_pData := by
  simp only [FreeStack.GetCount, FreeStack.GetSize]
  refine ⟨⟨fun ⟨r, hr⟩ => (s.pop_some r.2 r.1 hr).1, fun h => ⟨_, s.pop_eq_of_pos h⟩⟩,
    s.pop_eq_none, ?_⟩
  intro v t ht
  obtain ⟨hpos, rfl, rfl⟩ := s.pop_some t v ht
  have hd := dec32_of_pos hpos hs.1
  refine ⟨by rw [hd], ?_, rfl, rfl⟩
  simp only [hd]
  omega

theorem FreeStack.pop_spec_witness :
    ((∃ r, FreeStack.sample.pop = some r) ↔ 0 < FreeStack.sample.GetCount) ∧
    (FreeStack.sample.pop = none ↔ ¬ 0 < FreeStack.sample.GetCount) ∧
    ∀ v t, FreeStack.sample.pop = some (v, t) →
      v = FreeStack.sample.m_pData.word (FreeStack.sample.GetCount - 1) ∧
      t.GetCount + 1 = FreeStack.sample.GetCount ∧
      t.GetSize = FreeStack.sample.GetSize ∧ t.m_pData = FreeStack.sample.m_pData :=
  FreeStack.pop_spec FreeStack.sample (by decide)

theorem FreeStack.step_pop_some (s t : FreeStack) (h : s.step FreeStack.Op.pop = some t) :
    0 < s.m_uCount ∧ t = { s with m_uCount := dec32 s.m_uCount } := by
  by_cases hpos : 0 < s.m_uCount
  · rw [FreeStack.step, s.pop_eq_of_pos hpos] at h
    exact ⟨hpos, (Option.some.inj h).symm⟩
  · rw [FreeStack.step, s.pop_eq_none.2 hpos] at h
    cases h

/-- One successful call keeps the size, the `u32` typing and `count ≤ size`. -/
theorem FreeStack.step_keeps_le (s t : FreeStack) (op : FreeStack.Op) (hs : s.IsU32)
    (hle : s.m_uCount ≤ s.m_uSize) (h : s.step op = some t) :
    t.IsU32 ∧ t.m_uCount ≤ t.m_uSize ∧ t.m_uSize = s.m_uSize := by
  obtain ⟨hc, hz⟩ := hs
  cases op with
  | push i =>
    obtain ⟨hlt, rfl⟩ := s.push_some t i h
    have hinc := inc32_of_lt hlt hz
    clear h
    refine ⟨⟨?_, hz⟩, ?_, rfl⟩
    · dsimp only
      omega
    · dsimp only
      omega
  | pop =>
    obtain ⟨hpos, rfl⟩ := s.step_pop_some t h
    have hd := dec32_of_pos hpos hc
    clear h
    refine ⟨⟨?_, hz⟩, ?_, rfl⟩
    · dsimp only
      omega
    · dsimp only
      omega

/-- A successful sequence of calls keeps the size, the `u32` typing and `count ≤ size`. -/
theorem FreeStack.run_keeps_le (ops : List FreeStack.Op) :
    ∀ (s t : FreeStack), s.IsU32 → s.m_uCount ≤ s.m_uSize → s.run ops = some t →
      t.IsU32 ∧ t.m_uCount ≤ t.m_uSize ∧ t.m_uSize = s.m_uSize := by
  induction ops with
  | nil =>
    intro s t hs hle h
    simp only [FreeStack.run, Option.some.injEq] at h
    subst h
    exact ⟨hs, hle, rfl⟩
  | cons op ops ih =>
    intro s t hs hle h
    simp only [FreeStack.run, Option.bind_eq_some] at h
    obtain ⟨u, hu, hrun⟩ := h
    obtain ⟨hu1, hu2, hu3⟩ := s.step_keeps_le u op hs hle hu
    obtain ⟨ht1, ht2, ht3⟩ := ih u t hu1 hu2 hrun
    exact ⟨ht1, ht2, ht3.trans hu3⟩

/-- C9: if `count ≤ size` holds for the free stack of a manager, it holds after every
successful push and pop, hence `GetFreeCount() ≤ GetSize()` after every sequence of
successful pushes and pops; a successful push changes no entry outside `[0, size)` and
a successful pop returns the entry at a position inside `[0, size)`. -/
theorem FreeStack.count_le_size_invariant (d : DataManager) (hs : d.m_Free.IsU32)
    (hle : d.GetFreeCount ≤ d.GetSize) :
    (∀ i t, d.m_Free.push i = some t → t.GetCount ≤ t.GetSize) ∧
    (∀ v t, d.m_Free.pop = some (v, t) → t.GetCount ≤ t.GetSize) ∧
    (∀ ops t, d.m_Free.run ops = some t →
      ({ d with m_Free := t } : DataManager).GetFreeCount
        ≤ ({ d with m_Free := t } : DataManager).GetSize) ∧
    (∀ i t, d.m_Free.push i = some t →
      ∀ p, t.m_pData.word p ≠ d.m_Free.m_pData.word p → p < d.m_Free.GetSize) ∧
    (∀ v t, d.m_Free.pop = some (v, t) →
      dec32 d.m_Free.m_uCount < d.m_Free.GetSize ∧
      v = d.m_Free.m_pData.word (dec32 d.m_Free.m_uCount)) := by
  simp only [DataManager.GetFreeCount, DataManager.GetSize, FreeStack.GetCount,
    FreeStack.GetSize] at *
  refine ⟨?_, ?_, ?_, ?_, ?_⟩
  · intro i t h
    exact (d.m_Free.step_keeps_le t (FreeStack.Op.push i) hs hle h).2.1
  · intro v t h
    have h2 : d.m_Free.step FreeStack.Op.pop = some t := by simp [FreeStack.step, h]
    exact (d.m_Free.step_keeps_le t FreeStack.Op.pop hs hle h2).2.1
  · intro ops t h
    exact (FreeStack.run_keeps_le ops d.m_Free t hs hle h).2.1
  · intro i t h p hp
    obtain ⟨hlt, rfl⟩ := d.m_Free.push_some t i h
    by_cases hpc : p = d.m_Free.m_uCount
    · rw [hpc]
      exact hlt
    · simp [WordArray.store, hpc] at hp
  · intro v t h
    obtain ⟨hpos, hv, -⟩ := d.m_Free.pop_some t v h
    have hd := dec32_of_pos hpos hs.1
    clear h
    exact ⟨by omega, hv⟩

theorem FreeStack.count_le_size_invariant_witness :
    ({ DataManager.sample 4 3 0 with
        m_Free := { m_pData := (DataManager.sample 4 3 0).m_Free.m_pData.store 1 2
                    m_uCount := 1, m_uSize := 3 } } : DataManager).GetFreeCount
      ≤ ({ DataManager.sample 4 3 0 with
        m_Free := { m_pData := (DataManager.sample 4 3 0).m_Free.m_pData.store 1 2
                    m_uCount := 1, m_uSize := 3 } } : DataManager).GetSize :=
  (FreeStack.count_le_size_invariant (DataManager.sample 4 3 0) (by decide) (by decide)).2.2.1
    [FreeStack.Op.pop, FreeStack.Op.pop, FreeStack.Op.push 2, FreeStack.Op.pop] _ rfl

/-! ## The allocation invariant -/

/-- Counting over `0..n-1`: adding one index `a` to a set it is not in adds one. -/
theorem countP_range_or_eq (p : Nat → Bool) (a : Nat) (hpa : p a = false) (n : Nat) :
    (List.range n).countP (fun h => p h || h == a)
      = (List.range n).countP p + (if a < n then 1 else 0) := by
  induction n with
  | zero => simp
  | succ n ih =>
    rw [List.range_succ, List.countP_append, List.countP_append, ih,
      List.countP_singleton, List.countP_singleton]
    by_cases han : a = n
    · subst han
      simp [hpa]
    · have h1 : (n == a) = false := by simp; omega
      rw [h1, Bool.or_false]
      by_cases hlt : a < n
      · have : a < n + 1 := by omega
        simp only [hlt, this, if_true]
        omega
      · have : ¬ a < n + 1 := by omega
        simp only [hlt, this, if_false]
        omega

theorem stackedIn_iff (entry : Nat → Nat) (count h : Nat) :
    DataManager.stackedIn entry count h = true ↔ ∃ j, j < count ∧ entry j = h := by
  simp [DataManager.stackedIn]

theorem stackedIn_succ (entry : Nat → Nat) (count h : Nat) :
    DataManager.stackedIn entry (count + 1) h = (DataManager.stackedIn entry count h || h == entry count) := by
  unfold DataManager.stackedIn
  rw [List.range_succ, List.any_append]
  congr 1
  simp only [List.any_cons, List.any_nil, Bool.or_false]
  exact Bool.beq_comm

/-- Distinct valid indices on the stack: exactly `count` of the indices `0..n-1` are
stacked. -/
theorem countP_stackedIn (entry : Nat → Nat) (n : Nat) :
    ∀ count, (∀ j, j < count → entry j < n) →
      (∀ i j, i < count → j < count → entry i = entry j → i = j) →
      (List.range n).countP (fun h => DataManager.stackedIn entry count h) = count := by
  intro count
  induction count with
  | zero =>
    intro _ _
    simp [DataManager.stackedIn]
  | succ c ih =>
    intro hlt hinj
    have hfun : (fun h => DataManager.stackedIn entry (c + 1) h)
        = (fun h => DataManager.stackedIn entry c h || h == entry c) := by
      funext h
      exact stackedIn_succ entry c h
    have hnot : DataManager.stackedIn entry c (entry c) = false := by
      rw [Bool.eq_false_iff]
      intro hst
      obtain ⟨j, hj, hje⟩ := (stackedIn_iff entry c (entry c)).1 hst
      have := hinj j c (by omega) (by omega) hje
      omega
    rw [hfun, countP_range_or_eq (fun h => DataManager.stackedIn entry c h) (entry c) hnot n,
      ih (fun j hj => hlt j (by omega)) (fun i j hi hj => hinj i j (by omega) (by omega))]
    simp [hlt c (by omega)]

theorem countP_range_not (p : Nat → Bool) (n : Nat) :
    (List.range n).countP p + (List.range n).countP (fun h => !p h) = n := by
  induction n with
  | zero => simp
  | succ n ih =>
    rw [List.range_succ, List.countP_append, List.countP_append,
      List.countP_singleton, List.countP_singleton]
    cases hp : p n <;> simp <;> omega

theorem DataManager.header_of_lt (d : DataManager) (h : Alloc) (hv : h < d.m_Buf.m_uCount) :
    d.header h = some (d.m_Buf.m_pData.word (mul32 h d.m_Buf.m_uPrec)) := by
  simp [DataManager.header, d.m_Buf.index_of_lt h hv]

theorem DataManager.setHeader_of_lt (d : DataManager) (h : Alloc) (v : Nat)
    (hv : h < d.m_Buf.m_uCount) :
    d.setHeader h v = some { d with m_Buf := { d.m_Buf with
      m_pData := d.m_Buf.m_pData.store (mul32 h d.m_Buf.m_uPrec) v } } := by
  simp [DataManager.setHeader, d.m_Buf.index_of_lt h hv]

/-- Under the invariant the `u32` product locating a valid slot is the exact product. -/
theorem DataManager.Session.Inv.mul32_eq {clean : Prop} {s : DataManager.Session}
    (hI : s.Inv clean) {h : Nat} (hv : h < s.d.m_Buf.m_uCount) :
    mul32 h s.d.m_Buf.m_uPrec = h * s.d.m_Buf.m_uPrec := by
  have := block_end_le s.d.m_Buf.m_uPrec hv
  have := hI.no_wrap
  exact mul32_of_lt (by omega)

/-- Under the invariant a valid slot that is not stacked has a positive header. -/
theorem DataManager.Session.Inv.headerPositive_of_not_stacked {clean : Prop}
    {s : DataManager.Session} (hI : s.Inv clean) {h : Nat} (hv : h < s.d.m_Buf.m_uCount)
    (hns : s.d.onFreeStack h = false) : s.d.headerPositive h = true := by
  have hheld : 1 ≤ s.held h := by
    rcases Nat.eq_zero_or_pos (s.held h) with h0 | hpos
    · rcases (hI.held_zero h).1 h0 with hge | hst
      · omega
      · have := (stackedIn_iff _ _ _).2 hst
        simp only [DataManager.onFreeStack] at hns
        rw [hns] at this
        cases this
    · exact hpos
  have hw := (hI.header_eq h hheld).1
  simp only [DataManager.headerPositive, s.d.header_of_lt h hv, hI.mul32_eq hv, hw]
  simpa using hheld

/-- Under the invariant the free count plus the number of allocated slots is the size. -/
theorem DataManager.Session.Inv.free_add_allocated {clean : Prop} {s : DataManager.Session}
    (hI : s.Inv clean) : s.d.GetFreeCount + s.d.countAllocated = s.d.GetSize := by
  have hcongr : s.d.countAllocated
      = (List.range s.d.m_Buf.m_uCount).countP (fun h => !s.d.onFreeStack h) := by
    unfold DataManager.countAllocated DataManager.GetSize FreeStack.GetSize
    rw [hI.size_eq]
    apply List.countP_congr
    intro h hmem
    have hv : h < s.d.m_Buf.m_uCount := List.mem_range.1 hmem
    cases hst : s.d.onFreeStack h
    · simp [hI.headerPositive_of_not_stacked hv hst]
    · simp
  have hst := countP_stackedIn s.d.m_Free.m_pData.word s.d.m_Buf.m_uCount
    s.d.m_Free.m_uCount hI.entry_lt hI.entry_inj
  have hnot := countP_range_not (fun h => s.d.onFreeStack h) s.d.m_Buf.m_uCount
  simp only [DataManager.onFreeStack] at hnot hcongr
  rw [hst] at hnot
  rw [hcongr]
  simp only [DataManager.onFreeStack, DataManager.GetFreeCount, DataManager.GetSize,
    FreeStack.GetCount, FreeStack.GetSize, hI.size_eq]
  exact hnot

/-- Under the invariant, when all memory came zero-filled, the slots with a positive
header are exactly the allocated ones. -/
theorem DataManager.Session.Inv.countHeaderPositive_eq {clean : Prop}
    {s : DataManager.Session} (hI : s.Inv clean) (hc : clean) :
    s.d.countHeaderPositive = s.d.countAllocated := by
  unfold DataManager.countHeaderPositive DataManager.countAllocated DataManager.GetSize
    FreeStack.GetSize
  rw [hI.size_eq]
  apply List.countP_congr
  intro h hmem
  have hv : h < s.d.m_Buf.m_uCount := List.mem_range.1 hmem
  cases hst : s.d.onFreeStack h
  · simp
  · have h0 : s.held h = 0 :=
      (hI.held_zero h).2 (Or.inr ((stackedIn_iff _ _ _).1 hst))
    have hz := hI.clean_zero hc h hv h0
    simp [DataManager.headerPositive, s.d.header_of_lt h hv, hI.mul32_eq hv, hz]

theorem WordArray.store_word (a : WordArray) (p v q : Nat) :
    (a.store p v).word q = if q = p then v else a.word q := rfl

theorem mul_right_ne {g h prec : Nat} (hp : 1 ≤ prec) (hne : g ≠ h) : g * prec ≠ h * prec :=
  fun heq => hne (Nat.eq_of_mul_eq_mul_right (by omega) heq)

/-- Under the invariant every quantity fits `u32`. -/
theorem DataManager.Session.Inv.size_lt {clean : Prop} {s : DataManager.Session}
    (hI : s.Inv clean) : s.d.m_Buf.m_uCount < 4294967296 := by
  have h1 := hI.no_wrap
  have h2 : s.d.m_Buf.m_uCount * 1 ≤ s.d.m_Buf.m_uCount * s.d.m_Buf.m_uPrec :=
    Nat.mul_le_mul_left _ hI.prec_pos
  omega

/-- Under the invariant a held handle is a valid, unstacked slot whose header is the
number of references held. -/
theorem DataManager.Session.Inv.held_pos {clean : Prop} {s : DataManager.Session}
    (hI : s.Inv clean) {h : Nat} (hh : 1 ≤ s.held h) :
    h < s.d.m_Buf.m_uCount ∧
      (∀ j, j < s.d.m_Free.m_uCount → s.d.m_Free.m_pData.word j ≠ h) ∧
      s.d.header h = some (s.held h) ∧ s.held h < 4294967296 := by
  have hv : h < s.d.m_Buf.m_uCount := by
    rcases Nat.lt_or_ge h s.d.m_Buf.m_uCount with hlt | hge
    · exact hlt
    · have := (hI.held_zero h).2 (Or.inl hge)
      omega
  refine ⟨hv, ?_, ?_, (hI.header_eq h hh).2⟩
  · intro j hj hje
    have := (hI.held_zero h).2 (Or.inr ⟨j, hj, hje⟩)
    omega
  · rw [s.d.header_of_lt h hv, hI.mul32_eq hv, (hI.header_eq h hh).1]

/-- The session after a permitted `referenceAlloc`. -/
theorem DataManager.Session.step_referenceAlloc_eq {clean : Prop} {s : DataManager.Session}
    (hI : s.Inv clean) {h : Nat} (h1 : 1 ≤ s.held h) (h2 : s.held h + 1 < 4294967296) :
    s.step (DataManager.Call.referenceAlloc h) = some
      { d := { s.d with m_Buf := { s.d.m_Buf with
          m_pData := s.d.m_Buf.m_pData.store (h * s.d.m_Buf.m_uPrec) (s.held h + 1) } }
        held := DataManager.Session.acquire s.held h } := by
  obtain ⟨hv, -, hhd, -⟩ := hI.held_pos h1
  have hinc : inc32 (s.held h) = s.held h + 1 := inc32_of_lt (Nat.lt_succ_self _) h2
  simp [DataManager.Session.step, h1, h2, DataManager.referenceAlloc, hhd,
    s.d.setHeader_of_lt h _ hv, hI.mul32_eq hv, hinc]

theorem DataManager.Session.Inv.of_referenceAlloc {clean : Prop} {s t : DataManager.Session}
    (hI : s.Inv clean) {h : Nat} (hstep : s.step (DataManager.Call.referenceAlloc h) = some t) :
    t.Inv clean := by
  by_cases hg : 1 ≤ s.held h ∧ s.held h + 1 < 4294967296
  · obtain ⟨h1, h2⟩ := hg
    rw [DataManager.Session.step_referenceAlloc_eq hI h1 h2] at hstep
    obtain ⟨hv, hns, -, -⟩ := hI.held_pos h1
    have ht := (Option.some.inj hstep).symm
    clear hstep
    subst ht
    have hpp := hI.prec_pos
    constructor <;> dsimp only
    · exact hI.size_eq
    · exact hI.prec_pos
    · exact hI.no_wrap
    · exact hI.len_eq
    · exact hI.count_le
    · exact hI.entry_lt
    · exact hI.entry_inj
    · intro g
      unfold DataManager.Session.acquire
      by_cases hgh : g = h
      · subst hgh
        have := hI.held_zero g
        simp only [if_true]
        constructor
        · intro h0; omega
        · intro hr; have := this.2 hr; omega
      · simp only [hgh, if_false]
        exact hI.held_zero g
    · intro g
      unfold DataManager.Session.acquire
      rw [WordArray.store_word]
      by_cases hgh : g = h
      · subst hgh
        simp only [if_true]
        intro _
        exact ⟨trivial, h2⟩
      · simp only [hgh, if_false, mul_right_ne hpp hgh]
        exact hI.header_eq g
    · intro hc g hgv
      unfold DataManager.Session.acquire
      rw [WordArray.store_word]
      by_cases hgh : g = h
      · subst hgh
        simp only [if_true]
        intro h0; omega
      · simp only [hgh, if_false, mul_right_ne hpp hgh]
        exact hI.clean_zero hc g hgv
  · simp [DataManager.Session.step, hg] at hstep

/-- The session after a permitted `releaseAlloc` that leaves references behind. -/
theorem DataManager.Session.step_releaseAlloc_shared {clean : Prop}
    {s : DataManager.Session} (hI : s.Inv clean) {h : Nat} (h2 : 2 ≤ s.held h) :
    s.step (DataManager.Call.releaseAlloc h) = some
      { d := { s.d with m_Buf := { s.d.m_Buf with
          m_pData := s.d.m_Buf.m_pData.store (h * s.d.m_Buf.m_uPrec) (s.held h - 1) } }
        held := DataManager.Session.giveBack s.held h } := by
  have h1 : 1 ≤ s.held h := by omega
  obtain ⟨hv, -, hhd, hlt⟩ := hI.held_pos h1
  have hdec : dec32 (s.held h) = s.held h - 1 := dec32_of_pos h1 hlt
  have hne : s.held h - 1 ≠ 0 := by omega
  simp [DataManager.Session.step, h1, DataManager.releaseAlloc, hhd,
    s.d.setHeader_of_lt h _ hv, hI.mul32_eq hv, hdec, hne]

/-- The session after a permitted `releaseAlloc` of the last reference, when the push
onto the free stack succeeds. -/
theorem DataManager.Session.step_releaseAlloc_last {clean : Prop}
    {s : DataManager.Session} (hI : s.Inv clean) {h : Nat} (h1 : s.held h = 1)
    (hroom : s.d.m_Free.m_uCount < s.d.m_Free.m_uSize) :
    s.step (DataManager.Call.releaseAlloc h) = some
      { d := { s.d with
          m_Buf := { s.d.m_Buf with
            m_pData := s.d.m_Buf.m_pData.store (h * s.d.m_Buf.m_uPrec) 0 }
          m_Free := { s.d.m_Free with
            m_pData := s.d.m_Free.m_pData.store s.d.m_Free.m_uCount h
            m_uCount := s.d.m_Free.m_uCount + 1 } }
        held := DataManager.Session.giveBack s.held h } := by
  have hge : 1 ≤ s.held h := by omega
  obtain ⟨hv, -, hhd, hlt⟩ := hI.held_pos hge
  have hdec : dec32 (s.held h) = 0 := by rw [dec32_of_pos hge hlt]; omega
  have hsz : s.d.m_Free.m_uSize < 4294967296 := by rw [hI.size_eq]; exact hI.size_lt
  have hinc : inc32 s.d.m_Free.m_uCount = s.d.m_Free.m_uCount + 1 := inc32_of_lt hroom hsz
  simp [DataManager.Session.step, hge, DataManager.releaseAlloc, hhd,
    s.d.setHeader_of_lt h _ hv, hI.mul32_eq hv, hdec, DataManager.free,
    FreeStack.push, hroom, hinc]

/-- A `releaseAlloc` of the last reference fails when the free stack is full. -/
theorem DataManager.Session.step_releaseAlloc_full {clean : Prop}
    {s : DataManager.Session} (hI : s.Inv clean) {h : Nat} (h1 : s.held h = 1)
    (hroom : ¬ s.d.m_Free.m_uCount < s.d.m_Free.m_uSize) :
    s.step (DataManager.Call.releaseAlloc h) = none := by
  have hge : 1 ≤ s.held h := by omega
  obtain ⟨hv, -, hhd, hlt⟩ := hI.held_pos hge
  have hdec : dec32 (s.held h) = 0 := by rw [dec32_of_pos hge hlt]; omega
  simp [DataManager.Session.step, hge, DataManager.releaseAlloc, hhd,
    s.d.setHeader_of_lt h _ hv, hI.mul32_eq hv, hdec, DataManager.free,
    FreeStack.push, hroom]

theorem DataManager.Session.Inv.of_releaseAlloc {clean : Prop} {s t : DataManager.Session}
    (hI : s.Inv clean) {h : Nat} (hstep : s.step (DataManager.Call.releaseAlloc h) = some t) :
    t.Inv clean := by
  have hpp := hI.prec_pos
  by_cases hg : 1 ≤ s.held h
  · obtain ⟨hv, hns, -, hlt⟩ := hI.held_pos hg
    by_cases h2 : 2 ≤ s.held h
    · rw [DataManager.Session.step_releaseAlloc_shared hI h2] at hstep
      have ht := (Option.some.inj hstep).symm
      clear hstep
      subst ht
      constructor <;> dsimp only
      · exact hI.size_eq
      · exact hI.prec_pos
      · exact hI.no_wrap
      · exact hI.len_eq
      · exact hI.count_le
      · exact hI.entry_lt
      · exact hI.entry_inj
      · intro g
        unfold DataManager.Session.giveBack
        by_cases hgh : g = h
        · subst hgh
          have := hI.held_zero g
          simp only [if_true]
          constructor
          · intro h0; omega
          · intro hr; have := this.2 hr; omega
        · simp only [hgh, if_false]
          exact hI.held_zero g
      · intro g
        unfold DataManager.Session.giveBack
        rw [WordArray.store_word]
        by_cases hgh : g = h
        · subst hgh
          simp only [if_true]
          intro _
          exact ⟨trivial, by omega⟩
        · simp only [hgh, if_false, mul_right_ne hpp hgh]
          exact hI.header_eq g
      · intro hc g hgv
        unfold DataManager.Session.giveBack
        rw [WordArray.store_word]
        by_cases hgh : g = h
        · subst hgh
          simp only [if_true]
          intro h0; omega
        · simp only [hgh, if_false, mul_right_ne hpp hgh]
          exact hI.clean_zero hc g hgv
    · have h1 : s.held h = 1 := by omega
      by_cases hroom : s.d.m_Free.m_uCount < s.d.m_Free.m_uSize
      · rw [DataManager.Session.step_releaseAlloc_last hI h1 hroom] at hstep
        have ht := (Option.some.inj hstep).symm
        clear hstep
        subst ht
        have hsz := hI.size_eq
        constructor <;> dsimp only
        · exact hI.size_eq
        · exact hI.prec_pos
        · exact hI.no_wrap
        · exact hI.len_eq
        · omega
        · intro j hj
          rw [WordArray.store_word]
          by_cases hjc : j = s.d.m_Free.m_uCount
          · simp only [hjc, if_true]; exact hv
          · simp only [hjc, if_false]; exact hI.entry_lt j (by omega)
        · intro i j hi hj
          rw [WordArray.store_word, WordArray.store_word]
          by_cases hic : i = s.d.m_Free.m_uCount <;> by_cases hjc : j = s.d.m_Free.m_uCount
          · intro _; omega
          · simp only [hic, hjc, if_true, if_false]
            intro he
            exact absurd he.symm (hns j (by omega))
          · simp only [hic, hjc, if_true, if_false]
            intro he
            exact absurd he (hns i (by omega))
          · simp only [hic, hjc, if_false]
            exact hI.entry_inj i j (by omega) (by omega)
        · intro g
          unfold DataManager.Session.giveBack
          by_cases hgh : g = h
          · subst hgh
            simp only [if_true]
            constructor
            · intro _
              exact Or.inr ⟨s.d.m_Free.m_uCount, by omega, by simp [WordArray.store_word]⟩
            · intro _; omega
          · simp only [hgh, if_false]
            rw [hI.held_zero g]
            constructor
            · rintro (hge | ⟨j, hj, hje⟩)
              · exact Or.inl hge
              · refine Or.inr ⟨j, by omega, ?_⟩
                have : j ≠ s.d.m_Free.m_uCount := by omega
                simp [WordArray.store_word, this, hje]
            · rintro (hge | ⟨j, hj, hje⟩)
              · exact Or.inl hge
              · rw [WordArray.store_word] at hje
                by_cases hjc : j = s.d.m_Free.m_uCount
                · simp only [hjc, if_true] at hje
                  exact absurd hje.symm hgh
                · simp only [hjc, if_false] at hje
                  exact Or.inr ⟨j, by omega, hje⟩
        · intro g
          unfold DataManager.Session.giveBack
          rw [WordArray.store_word]
          by_cases hgh : g = h
          · subst hgh
            simp only [if_true]
            intro h0; omega
          · simp only [hgh, if_false, mul_right_ne hpp hgh]
            exact hI.header_eq g
        · intro hc g hgv
          unfold DataManager.Session.giveBack
          rw [WordArray.store_word]
          by_cases hgh : g = h
          · subst hgh
            simp only [if_true]
            intro _; trivial
          · simp only [hgh, if_false, mul_right_ne hpp hgh]
            exact hI.clean_zero hc g hgv
      · rw [DataManager.Session.step_releaseAlloc_full hI h1 hroom] at hstep
        cases hstep
  · simp [DataManager.Session.step, hg] at hstep

/-- The session after a `newAlloc` that finds a free index on the stack. -/
theorem DataManager.Session.step_newAlloc_pop {clean : Prop} {s : DataManager.Session}
    (hI : s.Inv clean) (garbage : Nat → Nat) (hc : s.d.m_Free.m_uCount ≠ 0) :
    s.step (DataManager.Call.newAlloc garbage) = some
      { d := { s.d with
          m_Buf := { s.d.m_Buf with
            m_pData := s.d.m_Buf.m_pData.store
              (s.d.m_Free.m_pData.word (s.d.m_Free.m_uCount - 1) * s.d.m_Buf.m_uPrec) 1 }
          m_Free := { s.d.m_Free with m_uCount := s.d.m_Free.m_uCount - 1 } }
        held := DataManager.Session.acquire s.held
          (s.d.m_Free.m_pData.word (s.d.m_Free.m_uCount - 1)) } := by
  have hpos : 0 < s.d.m_Free.m_uCount := by omega
  have hcl : s.d.m_Free.m_uCount < 4294967296 := by
    have := hI.count_le
    have := hI.size_lt
    omega
  have hdec : dec32 s.d.m_Free.m_uCount = s.d.m_Free.m_uCount - 1 := dec32_of_pos hpos hcl
  have hi : s.d.m_Free.m_pData.word (s.d.m_Free.m_uCount - 1) < s.d.m_Buf.m_uCount :=
    hI.entry_lt _ (by omega)
  have hm := hI.mul32_eq hi
  simp [DataManager.Session.step, DataManager.newAlloc, DataManager.get, FreeStack.GetCount,
    hc, FreeStack.pop, hpos, hdec, DataManager.setHeader, DataBuffer.index, hi, hm]

theorem DataManager.Session.Inv.of_newAlloc_pop {clean : Prop} {s t : DataManager.Session}
    (hI : s.Inv clean) (garbage : Nat → Nat) (hc : s.d.m_Free.m_uCount ≠ 0)
    (hstep : s.step (DataManager.Call.newAlloc garbage) = some t) : t.Inv clean := by
  have hpp := hI.prec_pos
  rw [DataManager.Session.step_newAlloc_pop hI garbage hc] at hstep
  have ht := (Option.some.inj hstep).symm
  clear hstep
  subst ht
  have hcl := hI.count_le
  have htop : s.d.m_Free.m_uCount - 1 < s.d.m_Free.m_uCount := by omega
  have hi : s.d.m_Free.m_pData.word (s.d.m_Free.m_uCount - 1) < s.d.m_Buf.m_uCount :=
    hI.entry_lt _ htop
  have hh0 : s.held (s.d.m_Free.m_pData.word (s.d.m_Free.m_uCount - 1)) = 0 :=
    (hI.held_zero _).2 (Or.inr ⟨_, htop, rfl⟩)
  constructor <;> dsimp only
  · exact hI.size_eq
  · exact hI.prec_pos
  · exact hI.no_wrap
  · exact hI.len_eq
  · omega
  · intro j hj
    exact hI.entry_lt j (by omega)
  · intro i j hi hj
    exact hI.entry_inj i j (by omega) (by omega)
  · intro g
    unfold DataManager.Session.acquire
    by_cases hgi : g = s.d.m_Free.m_pData.word (s.d.m_Free.m_uCount - 1)
    · simp only [hgi, if_true]
      constructor
      · intro h0; omega
      · rintro (hge | ⟨j, hj, hje⟩)
        · omega
        · have := hI.entry_inj j _ (by omega) htop hje
          omega
    · simp only [hgi, if_false]
      rw [hI.held_zero g]
      constructor
      · rintro (hge | ⟨j, hj, hje⟩)
        · exact Or.inl hge
        · refine Or.inr ⟨j, ?_, hje⟩
          have hne : j ≠ s.d.m_Free.m_uCount - 1 := by
            intro hjt
            rw [hjt] at hje
            exact hgi hje.symm
          omega
      · rintro (hge | ⟨j, hj, hje⟩)
        · exact Or.inl hge
        · exact Or.inr ⟨j, by omega, hje⟩
  · intro g
    unfold DataManager.Session.acquire
    rw [WordArray.store_word]
    by_cases hgi : g = s.d.m_Free.m_pData.word (s.d.m_Free.m_uCount - 1)
    · simp only [hgi, if_true, hh0]
      intro _
      exact ⟨trivial, by omega⟩
    · simp only [hgi, if_false, mul_right_ne hpp hgi]
      exact hI.header_eq g
  · intro hcz g hgv
    unfold DataManager.Session.acquire
    rw [WordArray.store_word]
    by_cases hgi : g = s.d.m_Free.m_pData.word (s.d.m_Free.m_uCount - 1)
    · simp only [hgi, if_true]
      intro h0; omega
    · simp only [hgi, if_false, mul_right_ne hpp hgi]
      exact hI.clean_zero hcz g hgv

/-- The session after a `newAlloc` that finds the free stack empty and grows the pool. -/
theorem DataManager.Session.step_newAlloc_grow {clean : Prop} {s : DataManager.Session}
    (hI : s.Inv clean) (garbage : Nat → Nat) (hc : s.d.m_Free.m_uCount = 0)
    (hfit : (s.d.m_Buf.m_uCount + s.d.m_uGrow) * s.d.m_Buf.m_uPrec < 4294967296)
    (hgr : 0 < s.d.m_uGrow) :
    s.step (DataManager.Call.newAlloc garbage) = some
      { d :=
          { m_Buf := { s.d.m_Buf.Grow s.d.m_uGrow garbage with
              m_pData := (s.d.m_Buf.Grow s.d.m_uGrow garbage).m_pData.store
                ((s.d.m_Buf.m_uCount + s.d.m_uGrow - 1) * s.d.m_Buf.m_uPrec) 1 }
            m_Free := { s.d.m_Free.Grow s.d.m_uGrow with m_uCount := s.d.m_uGrow - 1 }
            m_uGrow := s.d.m_uGrow }
        held := DataManager.Session.acquire s.held
          (s.d.m_Buf.m_uCount + s.d.m_uGrow - 1) } := by
  have hsum : s.d.m_Buf.m_uCount + s.d.m_uGrow < 4294967296 := by
    have h2 : (s.d.m_Buf.m_uCount + s.d.m_uGrow) * 1
        ≤ (s.d.m_Buf.m_uCount + s.d.m_uGrow) * s.d.m_Buf.m_uPrec :=
      Nat.mul_le_mul_left _ hI.prec_pos
    omega
  have hw1 : wrap32 (s.d.m_Buf.m_uCount + s.d.m_uGrow) = s.d.m_Buf.m_uCount + s.d.m_uGrow :=
    wrap32_of_lt hsum
  have hFc : (s.d.m_Free.Grow s.d.m_uGrow).m_uCount = s.d.m_uGrow := by
    simp only [FreeStack.Grow, hc, Nat.zero_add]
    exact wrap32_of_lt (by omega)
  have hdec : dec32 s.d.m_uGrow = s.d.m_uGrow - 1 := dec32_of_pos hgr (by omega)
  have htop : (s.d.m_Free.Grow s.d.m_uGrow).m_pData.word (s.d.m_uGrow - 1)
      = s.d.m_Buf.m_uCount + s.d.m_uGrow - 1 := by
    have hlt : s.d.m_uGrow - 1 < s.d.m_uGrow := by omega
    simp only [FreeStack.Grow, hc, Nat.zero_add, Nat.zero_le, hlt, and_self, if_true,
      Nat.sub_zero, hI.size_eq]
    rw [wrap32_of_lt (by omega)]
    omega
  have hpop : (s.d.m_Free.Grow s.d.m_uGrow).pop = some
      (s.d.m_Buf.m_uCount + s.d.m_uGrow - 1,
        { s.d.m_Free.Grow s.d.m_uGrow with m_uCount := s.d.m_uGrow - 1 }) := by
    rw [FreeStack.pop_eq_of_pos _ (by rw [hFc]; exact hgr), hFc, hdec, htop]
  have hidx : (s.d.m_Buf.Grow s.d.m_uGrow garbage).index (s.d.m_Buf.m_uCount + s.d.m_uGrow - 1)
      = some ((s.d.m_Buf.m_uCount + s.d.m_uGrow - 1) * s.d.m_Buf.m_uPrec) := by
    have hlt : s.d.m_Buf.m_uCount + s.d.m_uGrow - 1
        < (s.d.m_Buf.Grow s.d.m_uGrow garbage).m_uCount := by
      simp only [DataBuffer.Grow, hw1]
      omega
    rw [DataBuffer.index_of_lt _ _ hlt]
    have hle := block_end_le s.d.m_Buf.m_uPrec
      (show s.d.m_Buf.m_uCount + s.d.m_uGrow - 1 < s.d.m_Buf.m_uCount + s.d.m_uGrow by omega)
    simp only [DataBuffer.Grow]
    rw [mul32_of_lt (by omega)]
  have hget : s.d.get garbage = some
      (s.d.m_Buf.m_uCount + s.d.m_uGrow - 1,
        { m_Buf := s.d.m_Buf.Grow s.d.m_uGrow garbage
          m_Free := { s.d.m_Free.Grow s.d.m_uGrow with m_uCount := s.d.m_uGrow - 1 }
          m_uGrow := s.d.m_uGrow }) := by
    simp only [DataManager.get, FreeStack.GetCount, hc, if_true, hpop, Option.map_some']
  have hnew : s.d.newAlloc garbage = some
      (s.d.m_Buf.m_uCount + s.d.m_uGrow - 1,
        { m_Buf := { s.d.m_Buf.Grow s.d.m_uGrow garbage with
            m_pData := (s.d.m_Buf.Grow s.d.m_uGrow garbage).m_pData.store
              ((s.d.m_Buf.m_uCount + s.d.m_uGrow - 1) * s.d.m_Buf.m_uPrec) 1 }
          m_Free := { s.d.m_Free.Grow s.d.m_uGrow with m_uCount := s.d.m_uGrow - 1 }
          m_uGrow := s.d.m_uGrow }) := by
    simp only [DataManager.newAlloc, hget, Option.some_bind, DataManager.setHeader, hidx,
      Option.map_some']
  simp only [DataManager.Session.step, FreeStack.GetCount, hc, hfit, ne_eq, not_true_eq_false,
    false_or, if_true, hnew, Option.map_some']

/-- A `newAlloc` on an empty free stack fails when the growth step is 0. -/
theorem DataManager.Session.step_newAlloc_stuck (s : DataManager.Session)
    (garbage : Nat → Nat) (hc : s.d.m_Free.m_uCount = 0) (hgr : s.d.m_uGrow = 0) :
    s.step (DataManager.Call.newAlloc garbage) = none := by
  have hFc : (s.d.m_Free.Grow s.d.m_uGrow).m_uCount = 0 := by
    simp [FreeStack.Grow, hc, hgr, wrap32]
  have hpop : (s.d.m_Free.Grow s.d.m_uGrow).pop = none :=
    (FreeStack.pop_eq_none _).2 (by omega)
  have hget : s.d.get garbage = none := by
    simp only [DataManager.get, FreeStack.GetCount, hc, if_true, hpop, Option.map_none']
  simp [DataManager.Session.step, DataManager.newAlloc, hget]

theorem DataManager.Session.Inv.of_newAlloc_grow {clean : Prop} {s t : DataManager.Session}
    (hI : s.Inv clean) (garbage : Nat → Nat) (hz : clean → ∀ p, garbage p = 0)
    (hc : s.d.m_Free.m_uCount = 0)
    (hfit : (s.d.m_Buf.m_uCount + s.d.m_uGrow) * s.d.m_Buf.m_uPrec < 4294967296)
    (hstep : s.step (DataManager.Call.newAlloc garbage) = some t) : t.Inv clean := by
  have hpp := hI.prec_pos
  rcases Nat.eq_zero_or_pos s.d.m_uGrow with hg0 | hgr
  · rw [DataManager.Session.step_newAlloc_stuck s garbage hc hg0] at hstep
    cases hstep
  rw [DataManager.Session.step_newAlloc_grow hI garbage hc hfit hgr] at hstep
  have ht := (Option.some.inj hstep).symm
  clear hstep
  subst ht
  have hsum : s.d.m_Buf.m_uCount + s.d.m_uGrow < 4294967296 := by
    have h2 : (s.d.m_Buf.m_uCount + s.d.m_uGrow) * 1
        ≤ (s.d.m_Buf.m_uCount + s.d.m_uGrow) * s.d.m_Buf.m_uPrec :=
      Nat.mul_le_mul_left _ hI.prec_pos
    omega
  have hw1 : wrap32 (s.d.m_Buf.m_uCount + s.d.m_uGrow) = s.d.m_Buf.m_uCount + s.d.m_uGrow :=
    wrap32_of_lt hsum
  have hFw : ∀ j, j < s.d.m_uGrow →
      (s.d.m_Free.Grow s.d.m_uGrow).m_pData.word j = s.d.m_Buf.m_uCount + j := by
    intro j hj
    simp only [FreeStack.Grow, hc, Nat.zero_add, Nat.zero_le, hj, and_self, if_true,
      Nat.sub_zero, hI.size_eq]
    exact wrap32_of_lt (by omega)
  have hBw : ∀ q, (s.d.m_Buf.Grow s.d.m_uGrow garbage).m_pData.word q
      = if q < s.d.m_Buf.m_uCount * s.d.m_Buf.m_uPrec then s.d.m_Buf.m_pData.word q
        else garbage q := by
    intro q
    simp only [DataBuffer.Grow, hI.len_eq]
  have hold : ∀ g, g < s.d.m_Buf.m_uCount → 1 ≤ s.held g := by
    intro g hg
    rcases Nat.eq_zero_or_pos (s.held g) with h0 | hpos
    · rcases (hI.held_zero g).1 h0 with hge | ⟨j, hj, -⟩
      · omega
      · omega
    · exact hpos
  have hnew : ∀ g, s.d.m_Buf.m_uCount ≤ g → s.held g = 0 :=
    fun g hg => (hI.held_zero g).2 (Or.inl hg)
  constructor <;> dsimp only
  · simp only [FreeStack.Grow, DataBuffer.Grow, hI.size_eq]
  · exact hI.prec_pos
  · simp only [DataBuffer.Grow, hw1]
    exact hfit
  · simp only [DataBuffer.Grow, hw1, WordArray.store]
    exact mul32_of_lt hfit
  · simp only [DataBuffer.Grow, hw1]
    omega
  · intro j hj
    rw [hFw j (by omega)]
    simp only [DataBuffer.Grow, hw1]
    omega
  · intro i j hi hj
    rw [hFw i (by omega), hFw j (by omega)]
    omega
  · intro g
    unfold DataManager.Session.acquire
    simp only [DataBuffer.Grow, hw1]
    by_cases hgi : g = s.d.m_Buf.m_uCount + s.d.m_uGrow - 1
    · simp only [hgi, if_true]
      constructor
      · intro h0; omega
      · rintro (hge | ⟨j, hj, hje⟩)
        · omega
        · rw [hFw j (by omega)] at hje
          omega
    · simp only [hgi, if_false]
      constructor
      · intro h0
        rcases Nat.lt_or_ge g s.d.m_Buf.m_uCount with hlt | hge
        · have := hold g hlt
          omega
        · rcases Nat.lt_or_ge g (s.d.m_Buf.m_uCount + s.d.m_uGrow) with hlt2 | hge2
          · refine Or.inr ⟨g - s.d.m_Buf.m_uCount, by omega, ?_⟩
            rw [hFw _ (by omega)]
            omega
          · exact Or.inl hge2
      · rintro (hge | ⟨j, hj, hje⟩)
        · exact hnew g (by omega)
        · rw [hFw j (by omega)] at hje
          exact hnew g (by omega)
  · intro g
    unfold DataManager.Session.acquire
    rw [WordArray.store_word, hBw]
    simp only [DataBuffer.Grow]
    by_cases hgi : g = s.d.m_Buf.m_uCount + s.d.m_uGrow - 1
    · have h0 := hnew g (by omega)
      simp only [hgi, if_true]
      rw [← hgi, h0]
      intro _
      exact ⟨rfl, by omega⟩
    · simp only [hgi, if_false, mul_right_ne hpp hgi]
      intro hpos
      have hlt : g < s.d.m_Buf.m_uCount := by
        rcases Nat.lt_or_ge g s.d.m_Buf.m_uCount with hlt | hge
        · exact hlt
        · have := hnew g hge
          omega
      have hb := block_end_le s.d.m_Buf.m_uPrec hlt
      have hin : g * s.d.m_Buf.m_uPrec < s.d.m_Buf.m_uCount * s.d.m_Buf.m_uPrec := by omega
      simp only [hin, if_true]
      exact hI.header_eq g hpos
  · intro hcz g hgv
    unfold DataManager.Session.acquire
    rw [WordArray.store_word, hBw]
    simp only [DataBuffer.Grow, hw1] at hgv ⊢
    by_cases hgi : g = s.d.m_Buf.m_uCount + s.d.m_uGrow - 1
    · simp only [hgi, if_true]
      intro h0; omega
    · simp only [hgi, if_false, mul_right_ne hpp hgi]
      intro h0
      have hge : s.d.m_Buf.m_uCount ≤ g := by
        rcases Nat.lt_or_ge g s.d.m_Buf.m_uCount with hlt | hge
        · have := hold g hlt
          omega
        · exact hge
      have hout : ¬ g * s.d.m_Buf.m_uPrec < s.d.m_Buf.m_uCount * s.d.m_Buf.m_uPrec := by
        have := Nat.mul_le_mul_right s.d.m_Buf.m_uPrec hge
        omega
      simp only [hout, if_false]
      exact hz hcz _

/-- The invariant holds right after construction. -/
theorem DataManager.Session.Inv.of_init {clean : Prop} (prec howmany grow : Nat)
    (garbage : Nat → Nat) (hp : 1 ≤ prec) (hfit : howmany * prec < 4294967296)
    (hz : clean → ∀ p, garbage p = 0) :
    (DataManager.Session.init prec howmany grow garbage).Inv clean := by
  constructor <;>
    simp only [DataManager.Session.init, DataManager.ctor, DataBuffer.ctor, FreeStack.ctor]
  · exact hp
  · exact hfit
  · exact mul32_of_lt hfit
  · exact Nat.le_refl _
  · intro j hj
    exact hj
  · intro i j _ _ hij
    exact hij
  · intro h
    simp only [true_iff]
    rcases Nat.lt_or_ge h howmany with hlt | hge
    · exact Or.inr ⟨h, hlt, rfl⟩
    · exact Or.inl hge
  · intro h hh
    omega
  · intro hc h _ _
    exact hz hc _

/-- Every permitted call that succeeds preserves the invariant. -/
theorem DataManager.Session.Inv.of_step {clean : Prop} {s t : DataManager.Session}
    (hI : s.Inv clean) (c : DataManager.Call) (hz : clean → c.zeroFilled)
    (hstep : s.step c = some t) : t.Inv clean := by
  cases c with
  | newAlloc garbage =>
    by_cases hc : s.d.m_Free.m_uCount ≠ 0
    · exact hI.of_newAlloc_pop garbage hc hstep
    · have hc0 : s.d.m_Free.m_uCount = 0 := by omega
      by_cases hfit : (s.d.m_Buf.m_uCount + s.d.m_uGrow) * s.d.m_Buf.m_uPrec < 4294967296
      · exact hI.of_newAlloc_grow garbage hz hc0 hfit hstep
      · simp [DataManager.Session.step, FreeStack.GetCount, hc0, hfit] at hstep
  | referenceAlloc h => exact hI.of_referenceAlloc hstep
  | releaseAlloc h => exact hI.of_releaseAlloc hstep

/-- Every successful sequence of permitted calls preserves the invariant. -/
theorem DataManager.Session.Inv.of_run {clean : Prop} (calls : List DataManager.Call) :
    ∀ (s t : DataManager.Session), s.Inv clean →
      (clean → ∀ c, c ∈ calls → c.zeroFilled) → s.run calls = some t → t.Inv clean := by
  induction calls with
  | nil =>
    intro s t hI _ hrun
    simp only [DataManager.Session.run, Option.some.injEq] at hrun
    subst hrun
    exact hI
  | cons c cs ih =>
    intro s t hI hz hrun
    simp only [DataManager.Session.run, Option.bind_eq_some] at hrun
    obtain ⟨u, hu, hrest⟩ := hrun
    have hIu := hI.of_step c (fun hc => hz hc c (List.mem_cons_self c cs)) hu
    exact ih u t hIu (fun hc d hd => hz hc d (List.mem_cons_of_mem c hd)) hrest

/-- C10 as stated fails: `new u32[...]` does not initialise the storage, so slots that
were never allocated may hold nonzero header words. In a pool of 3 slots of 2 words whose
memory holds 1 everywhere, right after construction the free count is 3 and all 3 slots
have a header of at least 1; after one `newAlloc` the free count is 2 and still all 3
slots have a header of at least 1, while the size is 3. Independently, with zero-filled
memory and 3 slots of `2^31` words the headers of slots 0 and 2 are the same word
(`2 * 2^31` wraps to 0): after three `newAlloc`, `referenceAlloc(0)`, `releaseAlloc(2)`
and `releaseAlloc(0)` the free count is 1 and one slot has a header of at least 1. -/
theorem DataManager.free_plus_header_count_counterexample :
    ((DataManager.Session.init 2 3 100 (fun _ => 1)).run []).map
      (fun t => (t.d.GetFreeCount, t.d.countHeaderPositive, t.d.GetSize)) = some (3, 3, 3)
    ∧ 3 + 3 ≠ 3 ∧
    ((DataManager.Session.init 2 3 100 (fun _ => 1)).run
        [DataManager.Call.newAlloc (fun _ => 1)]).map
      (fun t => (t.d.GetFreeCount, t.d.countHeaderPositive, t.d.GetSize)) = some (2, 3, 3)
    ∧ 2 + 3 ≠ 3 ∧
    ((DataManager.Session.init 2147483648 3 100 (fun _ => 0)).run
        [DataManager.Call.newAlloc (fun _ => 0), DataManager.Call.newAlloc (fun _ => 0),
         DataManager.Call.newAlloc (fun _ => 0), DataManager.Call.referenceAlloc 0,
         DataManager.Call.releaseAlloc 2, DataManager.Call.releaseAlloc 0]).map
      (fun t => (t.d.GetFreeCount, t.d.countHeaderPositive, t.d.GetSize)) = some (1, 1, 3)
    ∧ 1 + 1 ≠ 3 := by
  refine ⟨rfl, by decide, rfl, by decide, rfl, by decide⟩

/-- C10 (amended): in every state reached from a freshly constructed manager
(`prec ≥ 1`, `howmany * prec < 2^32`) by a sequence of `newAlloc`, `referenceAlloc` and
`releaseAlloc` calls made under the usage contract, the free count plus the number of
slots that are not on the free stack and have a header of at least 1 equals the size,
and every slot not on the free stack has a header of at least 1. When all memory
obtained at construction and growth is zero-filled, the free count plus the number of
slots with a header of at least 1 equals the size. -/
theorem DataManager.free_plus_allocated_eq_size (prec howmany grow : Nat)
    (garbage : Nat → Nat) (calls : List DataManager.Call) (t : DataManager.Session)
    (hp : 1 ≤ prec) (hfit : howmany * prec < 4294967296)
    (hrun : (DataManager.Session.init prec howmany grow garbage).run calls = some t) :
    t.d.GetFreeCount + t.d.countAllocated = t.d.GetSize ∧
    (∀ h, h < t.d.GetSize → t.d.onFreeStack h = false → t.d.headerPositive h = true) ∧
    (((∀ p, garbage p = 0) ∧ ∀ c, c ∈ calls → c.zeroFilled) →
      t.d.GetFreeCount + t.d.countHeaderPositive = t.d.GetSize) := by
  have hI : t.Inv ((∀ p, garbage p = 0) ∧ ∀ c, c ∈ calls → c.zeroFilled) :=
    DataManager.Session.Inv.of_run calls _ t
      (DataManager.Session.Inv.of_init prec howmany grow garbage hp hfit (fun hc => hc.1))
      (fun hc => hc.2) hrun
  refine ⟨hI.free_add_allocated, ?_, ?_⟩
  · intro h hh hns
    simp only [DataManager.GetSize, FreeStack.GetSize, hI.size_eq] at hh
    exact hI.headerPositive_of_not_stacked hh hns
  · intro hc
    rw [hI.countHeaderPositive_eq hc]
    exact hI.free_add_allocated

theorem DataManager.free_plus_allocated_eq_size_witness :
    ∃ t, (DataManager.Session.init 2 2 2 (fun _ => 0)).run
        [DataManager.Call.newAlloc (fun _ => 0), DataManager.Call.newAlloc (fun _ => 0),
         DataManager.Call.newAlloc (fun _ => 0), DataManager.Call.referenceAlloc 3,
         DataManager.Call.releaseAlloc 3, DataManager.Call.releaseAlloc 0] = some t ∧
      t.d.GetFreeCount = 2 ∧ t.d.GetSize = 4 ∧
      t.d.GetFreeCount + t.d.countAllocated = t.d.GetSize :=
  ⟨_, rfl, rfl, rfl,
    (DataManager.free_plus_allocated_eq_size 2 2 2 (fun _ => 0)
      [DataManager.Call.newAlloc (fun _ => 0), DataManager.Call.newAlloc (fun _ => 0),
       DataManager.Call.newAlloc (fun _ => 0), DataManager.Call.referenceAlloc 3,
       DataManager.Call.releaseAlloc 3, DataManager.Call.releaseAlloc 0] _
      (by decide) (by decide) rfl).1⟩

/-! ## Sharing a slot -/

theorem DataManager.setHeader_some (d e : DataManager) (h : Alloc) (v : Nat)
    (hs : d.setHeader h v = some e) :
    h < d.m_Buf.m_uCount ∧ e = { d with m_Buf := { d.m_Buf with
      m_pData := d.m_Buf.m_pData.store (mul32 h d.m_Buf.m_uPrec) v } } := by
  by_cases hv : h < d.m_Buf.m_uCount
  · rw [d.setHeader_of_lt h v hv] at hs
    exact ⟨hv, (Option.some.inj hs).symm⟩
  · have hn : d.m_Buf.index h = none := (d.m_Buf.index_eq_none h).2 (Nat.le_of_not_lt hv)
    simp [DataManager.setHeader, hn] at hs

/-- A handle returned by `newAlloc` is a valid slot whose header word is 1. -/
theorem DataManager.newAlloc_header (d d1 : DataManager) (garbage : Nat → Nat) (h1 : Alloc)
    (hnew : d.newAlloc garbage = some (h1, d1)) :
    h1 < d1.m_Buf.m_uCount ∧ d1.header h1 = some 1 := by
  simp only [DataManager.newAlloc, Option.bind_eq_some, Option.map_eq_some'] at hnew
  obtain ⟨r, -, e, he, hpair⟩ := hnew
  have h1eq : r.1 = h1 := congrArg Prod.fst hpair
  have heq : e = d1 := congrArg Prod.snd hpair
  rw [h1eq, heq] at he
  obtain ⟨hv, rfl⟩ := r.2.setHeader_some d1 h1 1 he
  refine ⟨hv, ?_⟩
  simp [DataManager.header, DataBuffer.index, hv, WordArray.store_word]

/-- Sharing a valid slot whose header does not wrap to 1: `referenceAlloc` returns the
same handle, changes only the header word and leaves `AllocCanBeChanged` false. -/
theorem DataManager.referenceAlloc_of_header (d : DataManager) (h w : Nat)
    (hw : d.header h = some w) (hne : inc32 w ≠ 1) :
    ∃ d2, d.referenceAlloc h = some (h, d2) ∧
      (∀ k, d2.read h k = d.read h k) ∧
      (∀ q, q ≠ mul32 h d.m_Buf.m_uPrec → d2.m_Buf.m_pData.word q = d.m_Buf.m_pData.word q) ∧
      d2.m_Free = d.m_Free ∧
      d2.AllocCanBeChanged h = some false := by
  have hv : h < d.m_Buf.m_uCount := by
    by_cases hv : h < d.m_Buf.m_uCount
    · exact hv
    · have hn : d.m_Buf.index h = none := (d.m_Buf.index_eq_none h).2 (by omega)
      simp [DataManager.header, hn] at hw
  refine ⟨{ d with m_Buf := { d.m_Buf with
      m_pData := d.m_Buf.m_pData.store (mul32 h d.m_Buf.m_uPrec) (inc32 w) } }, ?_, ?_, ?_, rfl, ?_⟩
  · simp [DataManager.referenceAlloc, hw, d.setHeader_of_lt h _ hv]
  · intro k
    have hk : mul32 h d.m_Buf.m_uPrec + 1 + k ≠ mul32 h d.m_Buf.m_uPrec := by omega
    simp [DataManager.read, DataManager.index, DataBuffer.index, hv, WordArray.store_word, hk]
  · intro q hq
    simp [WordArray.store_word, hq]
  · simp [DataManager.AllocCanBeChanged, DataBuffer.index, hv, WordArray.store_word, hne]

/-- C11: for a handle `h1` returned by `newAlloc`, `referenceAlloc(h1)` succeeds and
returns `h1` itself, no payload word of the slot (indeed no word other than its header)
changes, and afterwards `AllocCanBeChanged(h1)` is false, while it was true before. The
same holds for every handle of which the client holds a reference in a state reached
under the usage contract. -/
theorem DataManager.referenceAlloc_shares (d d1 : DataManager) (garbage : Nat → Nat)
    (h1 : Alloc) (hnew : d.newAlloc garbage = some (h1, d1)) :
    d1.AllocCanBeChanged h1 = some true ∧
    (∃ d2, d1.referenceAlloc h1 = some (h1, d2) ∧
      (∀ k, d2.read h1 k = d1.read h1 k) ∧
      (∀ q, q ≠ mul32 h1 d1.m_Buf.m_uPrec →
        d2.m_Buf.m_pData.word q = d1.m_Buf.m_pData.word q) ∧
      d2.AllocCanBeChanged h1 = some false) ∧
    (∀ (prec howmany grow : Nat) (g0 : Nat → Nat) (calls : List DataManager.Call)
      (s : DataManager.Session) (h : Nat), 1 ≤ prec → howmany * prec < 4294967296 →
      (DataManager.Session.init prec howmany grow g0).run calls = some s →
      1 ≤ s.held h → s.held h + 1 < 4294967296 →
      ∃ d2, s.d.referenceAlloc h = some (h, d2) ∧
        (∀ k, d2.read h k = s.d.read h k) ∧
        d2.AllocCanBeChanged h = some false) := by
  obtain ⟨hv, hhd⟩ := d.newAlloc_header d1 garbage h1 hnew
  refine ⟨?_, ?_, ?_⟩
  · rw [DataManager.header_of_lt _ h1 hv] at hhd
    simp [DataManager.AllocCanBeChanged, DataBuffer.index, hv, Option.some.inj hhd]
  · obtain ⟨d2, e1, e2, e3, -, e5⟩ := d1.referenceAlloc_of_header h1 1 hhd (by decide)
    exact ⟨d2, e1, e2, e3, e5⟩
  · intro prec howmany grow g0 calls s h hp hfit hrun hheld hroom
    have hI : s.Inv False :=
      DataManager.Session.Inv.of_run calls _ s
        (DataManager.Session.Inv.of_init prec howmany grow g0 hp hfit (fun hc => hc.elim))
        (fun hc => hc.elim) hrun
    obtain ⟨-, -, hhd2, -⟩ := hI.held_pos hheld
    have hne : inc32 (s.held h) ≠ 1 := by
      rw [inc32_of_lt (Nat.lt_succ_self _) hroom]
      omega
    obtain ⟨d2, e1, e2, -, -, e5⟩ := s.d.referenceAlloc_of_header h (s.held h) hhd2 hne
    exact ⟨d2, e1, e2, e5⟩

theorem DataManager.referenceAlloc_shares_witness :
    ∃ d1, (DataManager.ctor 4 3 100 (fun _ => 7)).newAlloc (fun _ => 7) = some (2, d1) ∧
      d1.AllocCanBeChanged 2 = some true ∧
      ∃ d2, d1.referenceAlloc 2 = some (2, d2) ∧
        (∀ k, d2.read 2 k = d1.read 2 k) ∧
        (∀ q, q ≠ mul32 2 d1.m_Buf.m_uPrec →
          d2.m_Buf.m_pData.word q = d1.m_Buf.m_pData.word q) ∧
        d2.AllocCanBeChanged 2 = some false :=
  ⟨_, rfl,
    (DataManager.referenceAlloc_shares (DataManager.ctor 4 3 100 (fun _ => 7)) _
      (fun _ => 7) 2 rfl).1,
    (DataManager.referenceAlloc_shares (DataManager.ctor 4 3 100 (fun _ => 7)) _
      (fun _ => 7) 2 rfl).2.1⟩

/-! ## Growth of the pool -/

/-- A `newAlloc` on a manager whose free stack is not empty pops the top entry and leaves
sizes and growth step alone. -/
theorem DataManager.newAlloc_of_stacked (d : DataManager) (garbage : Nat → Nat) (c : Nat)
    (hc : d.m_Free.m_uCount = c + 1) (hc32 : c + 1 < 4294967296)
    (hentry : d.m_Free.m_pData.word c < d.m_Buf.m_uCount) :
    ∃ e, d.newAlloc garbage = some (d.m_Free.m_pData.word c, e) ∧
      e.m_Free = { d.m_Free with m_uCount := c } ∧
      e.m_Buf.m_uCount = d.m_Buf.m_uCount ∧ e.m_Buf.m_uPrec = d.m_Buf.m_uPrec ∧
      e.m_uGrow = d.m_uGrow := by
  have hdec : dec32 (c + 1) = c := by
    rw [dec32_of_pos (Nat.succ_pos c) hc32]
    omega
  have hget : d.get garbage = some (d.m_Free.m_pData.word c,
      { d with m_Free := { d.m_Free with m_uCount := c } }) := by
    simp [DataManager.get, FreeStack.GetCount, hc, FreeStack.pop, hdec]
  refine ⟨{ d with
      m_Buf := { d.m_Buf with
        m_pData := d.m_Buf.m_pData.store
          (mul32 (d.m_Free.m_pData.word c) d.m_Buf.m_uPrec) 1 },
      m_Free := { d.m_Free with m_uCount := c } }, ?_, rfl, rfl, rfl, rfl⟩
  simp [DataManager.newAlloc, hget, DataManager.setHeader, DataBuffer.index, hentry]

/-- After `n` calls of `newAlloc` on a manager with at least `n` valid stacked entries the
free count has dropped by `n`. -/
theorem DataManager.newAllocTimes_of_stacked (garbage : Nat → Nat) (m : Nat) :
    ∀ (n : Nat) (d : DataManager), d.m_Free.m_uCount = n + m → n + m < 4294967296 →
      (∀ j, j < n + m → d.m_Free.m_pData.word j < d.m_Buf.m_uCount) →
      ∃ e, d.newAllocTimes garbage n = some e ∧
        e.m_Free = { d.m_Free with m_uCount := m } ∧
        e.m_Buf.m_uCount = d.m_Buf.m_uCount ∧ e.m_Buf.m_uPrec = d.m_Buf.m_uPrec ∧
        e.m_uGrow = d.m_uGrow := by
  intro n
  induction n with
  | zero =>
    intro d hc _ _
    refine ⟨d, rfl, ?_, rfl, rfl, rfl⟩
    rw [Nat.zero_add] at hc
    rw [← hc]
  | succ n ih =>
    intro d hc h32 hentry
    have hc1 : d.m_Free.m_uCount = (n + m) + 1 := by omega
    obtain ⟨e, he, hF, hB, hP, hG⟩ :=
      d.newAlloc_of_stacked garbage (n + m) hc1 (by omega) (hentry (n + m) (by omega))
    have hcount : e.m_Free.m_uCount = n + m := by rw [hF]
    have hentry2 : ∀ j, j < n + m → e.m_Free.m_pData.word j < e.m_Buf.m_uCount := by
      intro j hj
      rw [hF, hB]
      exact hentry j (by omega)
    obtain ⟨f, hf, hF2, hB2, hP2, hG2⟩ := ih e hcount (by omega) hentry2
    refine ⟨f, ?_, ?_, hB2.trans hB, hP2.trans hP, hG2.trans hG⟩
    · simp only [DataManager.newAllocTimes, he, Option.some_bind]
      exact hf
    · rw [hF2, hF]

/-- A `newAlloc` on a manager whose free stack is empty grows storage and free stack by
the growth step and hands out the last new index. -/
theorem DataManager.newAlloc_of_empty (d : DataManager) (garbage : Nat → Nat)
    (hc : d.m_Free.m_uCount = 0) (hg : 0 < d.m_uGrow)
    (hlock : d.m_Free.m_uSize = d.m_Buf.m_uCount)
    (hfit : d.m_Buf.m_uCount + d.m_uGrow < 4294967296) :
    ∃ e, d.newAlloc garbage = some (d.m_Buf.m_uCount + d.m_uGrow - 1, e) ∧
      e.GetSize = d.GetSize + d.m_uGrow ∧ e.GetFreeCount = d.m_uGrow - 1 := by
  have hw1 : wrap32 (d.m_Buf.m_uCount + d.m_uGrow) = d.m_Buf.m_uCount + d.m_uGrow :=
    wrap32_of_lt hfit
  have hFc : (d.m_Free.Grow d.m_uGrow).m_uCount = d.m_uGrow := by
    simp only [FreeStack.Grow, hc, Nat.zero_add]
    exact wrap32_of_lt (by omega)
  have hdec : dec32 d.m_uGrow = d.m_uGrow - 1 := dec32_of_pos hg (by omega)
  have htop : (d.m_Free.Grow d.m_uGrow).m_pData.word (d.m_uGrow - 1)
      = d.m_Buf.m_uCount + d.m_uGrow - 1 := by
    have hlt : d.m_uGrow - 1 < d.m_uGrow := by omega
    simp only [FreeStack.Grow, hc, Nat.zero_add, Nat.zero_le, hlt, and_self, if_true,
      Nat.sub_zero, hlock]
    rw [wrap32_of_lt (by omega)]
    omega
  have hpop : (d.m_Free.Grow d.m_uGrow).pop = some
      (d.m_Buf.m_uCount + d.m_uGrow - 1,
        { d.m_Free.Grow d.m_uGrow with m_uCount := d.m_uGrow - 1 }) := by
    rw [FreeStack.pop_eq_of_pos _ (by rw [hFc]; exact hg), hFc, hdec, htop]
  have hget : d.get garbage = some
      (d.m_Buf.m_uCount + d.m_uGrow - 1,
        { m_Buf := d.m_Buf.Grow d.m_uGrow garbage
          m_Free := { d.m_Free.Grow d.m_uGrow with m_uCount := d.m_uGrow - 1 }
          m_uGrow := d.m_uGrow }) := by
    simp only [DataManager.get, FreeStack.GetCount, hc, if_true, hpop, Option.map_some']
  have hlt : d.m_Buf.m_uCount + d.m_uGrow - 1 < (d.m_Buf.Grow d.m_uGrow garbage).m_uCount := by
    simp only [DataBuffer.Grow, hw1]
    omega
  refine ⟨{ m_Buf := { d.m_Buf.Grow d.m_uGrow garbage with
              m_pData := (d.m_Buf.Grow d.m_uGrow garbage).m_pData.store
                (mul32 (d.m_Buf.m_uCount + d.m_uGrow - 1)
                  (d.m_Buf.Grow d.m_uGrow garbage).m_uPrec) 1 },
            m_Free := { d.m_Free.Grow d.m_uGrow with m_uCount := d.m_uGrow - 1 },
            m_uGrow := d.m_uGrow }, ?_, ?_, rfl⟩
  · simp only [DataManager.newAlloc, hget, Option.some_bind, DataManager.setHeader,
      DataBuffer.index_of_lt _ _ hlt, Option.map_some']
  · simp only [DataManager.GetSize, FreeStack.GetSize, FreeStack.Grow, hlock, hw1]

/-- C12: a manager constructed with initial count 100 and growth step 100 (any precision,
any content of the fresh memory) serves 100 consecutive `newAlloc` calls, after which
`GetFreeCount()` is 0 and `GetSize()` still 100; the 101st `newAlloc` succeeds, and after
it `GetSize()` is 200 and `GetFreeCount()` is 99. -/
theorem DataManager.growth_on_101st_newAlloc (prec : Nat) (g0 garbage : Nat → Nat) :
    ∃ d100, (DataManager.ctor prec 100 100 g0).newAllocTimes garbage 100 = some d100 ∧
      d100.GetFreeCount = 0 ∧ d100.GetSize = 100 ∧
      ∃ h d101, d100.newAlloc garbage = some (h, d101) ∧
        d101.GetSize = 200 ∧ d101.GetFreeCount = 99 := by
  obtain ⟨d100, hrun, hF, hB, -, hG⟩ :=
    DataManager.newAllocTimes_of_stacked garbage 0 100 (DataManager.ctor prec 100 100 g0)
      rfl (by decide) (fun j hj => hj)
  have hB100 : d100.m_Buf.m_uCount = 100 := hB
  have hG100 : d100.m_uGrow = 100 := hG
  have hc0 : d100.m_Free.m_uCount = 0 := by rw [hF]
  have hs100 : d100.m_Free.m_uSize = 100 := by rw [hF]; rfl
  refine ⟨d100, hrun, hc0, hs100, ?_⟩
  obtain ⟨e, he, hsize, hfree⟩ := d100.newAlloc_of_empty garbage hc0 (by omega)
    (by rw [hs100, hB100]) (by omega)
  refine ⟨_, e, he, ?_, ?_⟩
  · rw [hsize, hG100]
    simp only [DataManager.GetSize, FreeStack.GetSize, hs100]
  · rw [hfree, hG100]

/-! ## Construction -/

/-- C13: a free stack constructed with size `n` has `GetCount() = GetSize() = n`, its
stored entries are a permutation of `0..n-1`, and every index below `n` is stored at
exactly one position. -/
theorem FreeStack.ctor_enumerates (n : Nat) :
    (FreeStack.ctor n).GetCount = n ∧ (FreeStack.ctor n).GetSize = n ∧
    ((List.range (FreeStack.ctor n).GetCount).map (FreeStack.ctor n).m_pData.word).Perm
      (List.range n) ∧
    ∀ h, h < n → ∃ j, j < (FreeStack.ctor n).GetCount ∧
      (FreeStack.ctor n).m_pData.word j = h ∧
      ∀ i, i < (FreeStack.ctor n).GetCount → (FreeStack.ctor n).m_pData.word i = h → i = j := by
  refine ⟨rfl, rfl, ?_, ?_⟩
  · have hid : (FreeStack.ctor n).m_pData.word = id := rfl
    rw [hid, List.map_id]
    exact List.Perm.refl _
  · intro h hh
    exact ⟨h, hh, rfl, fun i _ hi => hi⟩

/-- C14 as stated fails: `DataBuffer(2, 2^31)` allocates `2 * 2^31 mod 2^32 = 0` words, so
the block of slot 0 (offsets `0 .. 2^31 - 1`) already ends beyond the allocated length;
the block of slot 1 starts at offset `2^31`. -/
theorem DataBuffer.slot_outside_allocation_counterexample :
    (DataBuffer.ctor 2 2147483648 (fun _ => 0)).m_pData.len = 0 ∧
    (0 : Nat) < 2 ∧
    (DataBuffer.ctor 2 2147483648 (fun _ => 0)).index 0 = some 0 ∧
    ¬ (0 + 2147483648 ≤ (DataBuffer.ctor 2 2147483648 (fun _ => 0)).m_pData.len) ∧
    (1 : Nat) < 2 ∧
    (DataBuffer.ctor 2 2147483648 (fun _ => 0)).index 1 = some 2147483648 ∧
    ¬ (2147483648 + 2147483648 ≤ (DataBuffer.ctor 2 2147483648 (fun _ => 0)).m_pData.len) := by
  refine ⟨?_, ?_, ?_, ?_, ?_, ?_, ?_⟩ <;> decide

/-- C14 (amended): when `howmany * precision` is below `2^32`, for every index below
`howmany` the block of `precision` words starting at the offset returned by
`DataBuffer::operator[]` ends at or before the allocated length `howmany * precision`. -/
theorem DataBuffer.slot_inside_allocation (howmany precision index : Nat)
    (garbage : Nat → Nat) (hfit : howmany * precision < 4294967296)
    (hi : index < howmany) :
    ∃ p, (DataBuffer.ctor howmany precision garbage).index index = some p ∧
      p = index * precision ∧
      p + (DataBuffer.ctor howmany precision garbage).GetPrec
        ≤ (DataBuffer.ctor howmany precision garbage).m_pData.len := by
  have hend := block_end_le precision hi
  refine ⟨mul32 index precision, ?_, mul32_of_lt (by omega), ?_⟩
  · exact DataBuffer.index_of_lt _ index hi
  · simp only [DataBuffer.ctor, DataBuffer.GetPrec]
    rw [mul32_of_lt (by omega), mul32_of_lt hfit]
    exact hend

theorem DataBuffer.slot_inside_allocation_witness :
    ∃ p, (DataBuffer.ctor 3 4 (fun _ => 0)).index 2 = some p ∧
      p = 2 * 4 ∧
      p + (DataBuffer.ctor 3 4 (fun _ => 0)).GetPrec
        ≤ (DataBuffer.ctor 3 4 (fun _ => 0)).m_pData.len :=
  DataBuffer.slot_inside_allocation 3 4 2 (fun _ => 0) (by decide) (by decide)

/-! ## Distinct and valid entries on the free stack -/

/-- The outcome of `n` consecutive pops on a stack holding at least `n` entries: they
return the top `n` entries, which are pairwise different when the stacked entries are. -/
theorem FreeStack.pops_of_le (n : Nat) :
    ∀ (s : FreeStack), s.IsU32 → n ≤ s.m_uCount →
      ∃ vs u, s.pops n = some (vs, u) ∧ vs.length = n ∧
        u.m_uCount + n = s.m_uCount ∧ u.m_uSize = s.m_uSize ∧ u.m_pData = s.m_pData ∧
        (∀ x, x ∈ vs → ∃ j, u.m_uCount ≤ j ∧ j < s.m_uCount ∧ s.m_pData.word j = x) ∧
        ((∀ i j, i < s.m_uCount → j < s.m_uCount →
            s.m_pData.word i = s.m_pData.word j → i = j) → vs.Nodup) := by
  induction n with
  | zero =>
    intro s _ _
    exact ⟨[], s, rfl, rfl, rfl, rfl, rfl, fun x hx => (by cases hx), fun _ => List.nodup_nil⟩
  | succ n ih =>
    intro s hs hn
    have hpos : 0 < s.m_uCount := by omega
    have hdec : dec32 s.m_uCount = s.m_uCount - 1 := dec32_of_pos hpos hs.1
    have hpop := s.pop_eq_of_pos hpos
    rw [hdec] at hpop
    have hts : ({ s with m_uCount := s.m_uCount - 1 } : FreeStack).IsU32 :=
      ⟨by show s.m_uCount - 1 < 4294967296; have := hs.1; omega, hs.2⟩
    obtain ⟨vs, u, hu, hlen, hcount, hsize, hdata, hmem, hnd⟩ :=
      ih { s with m_uCount := s.m_uCount - 1 } hts (by show n ≤ s.m_uCount - 1; omega)
    have hcount2 : u.m_uCount + n = s.m_uCount - 1 := hcount
    have hmem2 : ∀ x, x ∈ vs →
        ∃ j, u.m_uCount ≤ j ∧ j < s.m_uCount - 1 ∧ s.m_pData.word j = x := hmem
    refine ⟨s.m_pData.word (s.m_uCount - 1) :: vs, u, ?_, ?_, ?_, hsize, hdata, ?_, ?_⟩
    · simp only [FreeStack.pops, hpop, Option.some_bind, hu, Option.map_some']
    · simp [hlen]
    · omega
    · intro x hx
      rcases List.mem_cons.1 hx with rfl | hx2
      · exact ⟨s.m_uCount - 1, by omega, by omega, rfl⟩
      · obtain ⟨j, hj1, hj2, hj3⟩ := hmem2 x hx2
        exact ⟨j, hj1, by omega, hj3⟩
    · intro hd
      refine List.nodup_cons.2 ⟨?_, hnd (fun i j hi hj => hd i j ?_ ?_)⟩
      · intro hin
        obtain ⟨j, -, hj2, hj3⟩ := hmem2 _ hin
        have := hd j (s.m_uCount - 1) (by omega) (by omega) hj3
        omega
      · have : i < s.m_uCount - 1 := hi
        omega
      · have : j < s.m_uCount - 1 := hj
        omega

/-- C15: if the first `count` entries of a free stack are pairwise distinct, then `pop`
(on a stack with `count > 0`) returns an index that does not occur among the remaining
stacked entries, the remaining entries are still pairwise distinct, and every run of
consecutive pops returns pairwise different indices. -/
theorem FreeStack.pop_leaves_free_set (s : FreeStack) (hs : s.IsU32)
    (hd : ∀ i j, i < s.GetCount → j < s.GetCount →
      s.m_pData.word i = s.m_pData.word j → i = j)
    (hpos : 0 < s.GetCount) :
    ∃ v t, s.pop = some (v, t) ∧
      (∀ j, j < t.GetCount → t.m_pData.word j ≠ v) ∧
      (∀ i j, i < t.GetCount → j < t.GetCount →
        t.m_pData.word i = t.m_pData.word j → i = j) ∧
      (∀ n, n ≤ s.GetCount → ∃ vs u, s.pops n = some (vs, u) ∧ vs.length = n ∧ vs.Nodup) := by
  simp only [FreeStack.GetCount] at hd hpos ⊢
  have hdec : dec32 s.m_uCount = s.m_uCount - 1 := dec32_of_pos hpos hs.1
  have hpop := s.pop_eq_of_pos hpos
  rw [hdec] at hpop
  refine ⟨_, _, hpop, ?_, ?_, ?_⟩
  · intro j hj hje
    have hj2 : j < s.m_uCount - 1 := hj
    have := hd j (s.m_uCount - 1) (by omega) (by omega) hje
    omega
  · intro i j hi hj hij
    have hi2 : i < s.m_uCount - 1 := hi
    have hj2 : j < s.m_uCount - 1 := hj
    exact hd i j (by omega) (by omega) hij
  · intro n hn
    obtain ⟨vs, u, hu, hlen, -, -, -, -, hnd⟩ := FreeStack.pops_of_le n s hs hn
    exact ⟨vs, u, hu, hlen, hnd hd⟩

theorem FreeStack.pop_leaves_free_set_witness :
    ∃ v t, FreeStack.sample.pop = some (v, t) ∧
      (∀ j, j < t.GetCount → t.m_pData.word j ≠ v) ∧
      (∀ i j, i < t.GetCount → j < t.GetCount →
        t.m_pData.word i = t.m_pData.word j → i = j) ∧
      (∀ n, n ≤ FreeStack.sample.GetCount →
        ∃ vs u, FreeStack.sample.pops n = some (vs, u) ∧ vs.length = n ∧ vs.Nodup) :=
  FreeStack.pop_leaves_free_set FreeStack.sample (by decide)
    (fun _ _ _ _ hij => hij) (by decide)

/-- C16: if every one of the first `count` entries of a free stack is below `size`, then
`pop` (on a stack with `count > 0`) returns a value below `size` and leaves every
stacked entry below `size`, and `push(i)` with `i < size` and `count < size` keeps every
stacked entry below `size`. -/
theorem FreeStack.entries_stay_valid (s : FreeStack) (hs : s.IsU32)
    (hvalid : ∀ j, j < s.GetCount → s.m_pData.word j < s.GetSize) :
    (0 < s.GetCount → ∃ v t, s.pop = some (v, t) ∧ v < s.GetSize ∧
      ∀ j, j < t.GetCount → t.m_pData.word j < t.GetSize) ∧
    (∀ i, i < s.GetSize → s.GetCount < s.GetSize → ∃ t, s.push i = some t ∧
      ∀ j, j < t.GetCount → t.m_pData.word j < t.GetSize) := by
  simp only [FreeStack.GetCount, FreeStack.GetSize] at hvalid ⊢
  constructor
  · intro hpos
    have hdec : dec32 s.m_uCount = s.m_uCount - 1 := dec32_of_pos hpos hs.1
    have hpop := s.pop_eq_of_pos hpos
    rw [hdec] at hpop
    refine ⟨_, _, hpop, hvalid _ (by omega), ?_⟩
    intro j hj
    have hj2 : j < s.m_uCount - 1 := hj
    exact hvalid j (by omega)
  · intro i hi hlt
    have hinc : inc32 s.m_uCount = s.m_uCount + 1 := inc32_of_lt hlt hs.2
    have hpush := s.push_eq_of_lt i hlt
    rw [hinc] at hpush
    refine ⟨_, hpush, ?_⟩
    intro j hj
    have hj2 : j < s.m_uCount + 1 := hj
    show (s.m_pData.store s.m_uCount i).word j < s.m_uSize
    rw [WordArray.store_word]
    by_cases hjc : j = s.m_uCount
    · simp only [hjc, if_true]
      exact hi
    · simp only [hjc, if_false]
      exact hvalid j (by omega)

theorem FreeStack.entries_stay_valid_witness :
    (0 < FreeStack.sample.GetCount → ∃ v t, FreeStack.sample.pop = some (v, t) ∧
      v < FreeStack.sample.GetSize ∧
      ∀ j, j < t.GetCount → t.m_pData.word j < t.GetSize) ∧
    (∀ i, i < FreeStack.sample.GetSize →
      FreeStack.sample.GetCount < FreeStack.sample.GetSize →
      ∃ t, FreeStack.sample.push i = some t ∧
        ∀ j, j < t.GetCount → t.m_pData.word j < t.GetSize) :=
  FreeStack.entries_stay_valid FreeStack.sample (by decide) (by decide)

/-- C17: on a free stack with `count > 0` (and `count ≤ size`, the invariant of the
class), `pop` followed by a push of the popped index succeeds and restores the count,
the size and the first `count` stored entries, indeed every stored entry. -/
theorem FreeStack.pop_push_identity (s : FreeStack) (hs : s.IsU32)
    (hle : s.GetCount ≤ s.GetSize) (hpos : 0 < s.GetCount) :
    ∃ i t u, s.pop = some (i, t) ∧ t.push i = some u ∧
      u.GetCount = s.GetCount ∧ u.GetSize = s.GetSize ∧
      (∀ j, j < s.GetCount → u.m_pData.word j = s.m_pData.word j) ∧
      (∀ j, u.m_pData.word j = s.m_pData.word j) := by
  simp only [FreeStack.GetCount, FreeStack.GetSize] at hle hpos ⊢
  have hdec : dec32 s.m_uCount = s.m_uCount - 1 := dec32_of_pos hpos hs.1
  have hpop := s.pop_eq_of_pos hpos
  rw [hdec] at hpop
  have hlt : s.m_uCount - 1 < s.m_uSize := by omega
  have hinc : inc32 (s.m_uCount - 1) = s.m_uCount := by
    rw [inc32_of_lt hlt hs.2]
    omega
  have hpush := FreeStack.push_eq_of_lt { s with m_uCount := s.m_uCount - 1 }
    (s.m_pData.word (s.m_uCount - 1)) hlt
  have hword : ∀ j, (s.m_pData.store (s.m_uCount - 1) (s.m_pData.word (s.m_uCount - 1))).word j
      = s.m_pData.word j := by
    intro j
    rw [WordArray.store_word]
    by_cases hj : j = s.m_uCount - 1
    · simp only [hj, if_true]
    · simp only [hj, if_false]
  refine ⟨_, _, _, hpop, hpush, hinc, rfl, fun j _ => hword j, hword⟩

theorem FreeStack.pop_push_identity_witness :
    ∃ i t u, FreeStack.sample.pop = some (i, t) ∧ t.push i = some u ∧
      u.GetCount = FreeStack.sample.GetCount ∧ u.GetSize = FreeStack.sample.GetSize ∧
      (∀ j, j < FreeStack.sample.GetCount →
        u.m_pData.word j = FreeStack.sample.m_pData.word j) ∧
      (∀ j, u.m_pData.word j = FreeStack.sample.m_pData.word j) :=
  FreeStack.pop_push_identity FreeStack.sample (by decide) (by decide) (by decide)

end RealLib
